import Mathlib

/-!
Verification of the project-customization engine of `apk-builder-actions`
(`scripts/customize-project.py` and the color-table writer of
`scripts/build-apk.py`).  Strings are modelled as `List Char`; the Python
string operations (`str.replace`, `str.split`, slicing, `re.sub` with the
concrete patterns used by the scripts) are embedded as executable functions
on `List Char`, ASCII-faithful.
-/

namespace Apk

/-- Convert a string literal to the `List Char` representation used throughout. -/
def cl (s : String) : List Char := s.data

/-- The character `<` (used by the XML field patterns). -/
def ltc : Char := '<'

/-- The double-quote character. -/
def dq : Char := Char.ofNat 34

/-- The single-quote character. -/
def sq : Char := Char.ofNat 39

/-- Fuel-driven worker for `replaceAll` (structural recursion on the fuel, so
that the kernel can evaluate it on concrete inputs). -/
def replaceAllF : Nat → List Char → List Char → List Char → List Char
  | _, [], _, _ => []
  | 0, s, _, _ => s
  | fuel + 1, c :: t, pat, rep =>
    if pat.isPrefixOf (c :: t) then
      rep ++ replaceAllF fuel ((c :: t).drop pat.length) pat rep
    else
      c :: replaceAllF fuel t pat rep

/-- Python `str.replace(pat, rep)` for a nonempty `pat`: replace every
non-overlapping occurrence of `pat`, scanning left to right. -/
def replaceAll (s pat rep : List Char) : List Char :=
  replaceAllF s.length s pat rep

theorem replaceAllF_fuel {pat : List Char} (hp : pat ≠ []) :
    ∀ (f₁ f₂ : Nat) (s rep : List Char), s.length ≤ f₁ → s.length ≤ f₂ →
      replaceAllF f₁ s pat rep = replaceAllF f₂ s pat rep := by
  intro f₁
  induction f₁ with
  | zero =>
    intro f₂ s rep h₁ _
    cases s with
    | nil => cases f₂ <;> rfl
    | cons c t => simp at h₁
  | succ f ih =>
    intro f₂ s rep h₁ h₂
    cases s with
    | nil => cases f₂ <;> rfl
    | cons c t =>
      cases f₂ with
      | zero => simp at h₂
      | succ f' =>
        have hple : 1 ≤ pat.length := by
          cases pat with
          | nil => exact absurd rfl hp
          | cons a b => simp
        simp only [replaceAllF]
        by_cases hpre : pat.isPrefixOf (c :: t)
        · rw [if_pos hpre, if_pos hpre]
          have hd : ((c :: t).drop pat.length).length ≤ f := by
            simp only [List.length_drop, List.length_cons]
            simp only [List.length_cons] at h₁
            omega
          have hd' : ((c :: t).drop pat.length).length ≤ f' := by
            simp only [List.length_drop, List.length_cons]
            simp only [List.length_cons] at h₂
            omega
          rw [ih f' _ rep hd hd']
        · rw [if_neg hpre, if_neg hpre]
          have ht : t.length ≤ f := by simp at h₁; omega
          have ht' : t.length ≤ f' := by simp at h₂; omega
          rw [ih f' t rep ht ht']

theorem replaceAll_nil (pat rep : List Char) : replaceAll [] pat rep = [] := rfl

theorem replaceAll_cons {pat : List Char} (hp : pat ≠ []) (c : Char)
    (t rep : List Char) :
    replaceAll (c :: t) pat rep =
      if pat.isPrefixOf (c :: t) then
        rep ++ replaceAll ((c :: t).drop pat.length) pat rep
      else
        c :: replaceAll t pat rep := by
  have hple : 1 ≤ pat.length := by
    cases pat with
    | nil => exact absurd rfl hp
    | cons a b => simp
  show replaceAllF (t.length + 1) (c :: t) pat rep = _
  simp only [replaceAllF]
  by_cases hpre : pat.isPrefixOf (c :: t)
  · rw [if_pos hpre, if_pos hpre]
    congr 1
    exact replaceAllF_fuel hp _ _ _ rep
      (by simp only [List.length_drop, List.length_cons]; omega) (Nat.le_refl _)
  · rw [if_neg hpre, if_neg hpre]
    rfl

/-- Python `s.split(sep)[0]`: the prefix of `s` before the first occurrence of
the character `sep` (the scripts only split on single characters here). -/
def takeUntilChar (sep : Char) (s : List Char) : List Char :=
  s.takeWhile (fun c => c ≠ sep)

/-- Python `s.split(sep)` for a single-character separator: keeps empty
fragments, `''.split(sep) = ['']`. -/
def splitOnChar (sep : Char) : List Char → List (List Char)
  | [] => [[]]
  | c :: t =>
    if c = sep then [] :: splitOnChar sep t
    else
      match splitOnChar sep t with
      | [] => [[c]]
      | s :: rest => (c :: s) :: rest

/-- `'.'.join(parts)` for the dot separator. -/
def joinDot : List (List Char) → List Char
  | [] => []
  | [s] => s
  | s :: rest => s ++ '.' :: joinDot rest

/-- ASCII `str.lower` on a character (the scripts' identifiers are ASCII by the
time `.lower()` runs, because non-`[A-Za-z0-9_]` characters were stripped). -/
def pyLower (c : Char) : Char :=
  if 65 ≤ c.toNat ∧ c.toNat ≤ 90 then Char.ofNat (c.toNat + 32) else c

/-- A character kept by `re.sub(r'[^a-zA-Z0-9_]', '', ...)`. -/
def wordChar (c : Char) : Bool :=
  (65 ≤ c.toNat && c.toNat ≤ 90) || (97 ≤ c.toNat && c.toNat ≤ 122) ||
    (48 ≤ c.toNat && c.toNat ≤ 57) || c.toNat = 95

/-- A character allowed in the *final* identifier segments: lowercase letter,
digit or underscore. -/
def lowWordChar (c : Char) : Bool :=
  (97 ≤ c.toNat && c.toNat ≤ 122) || (48 ≤ c.toNat && c.toNat ≤ 57) ||
    c.toNat = 95

/-- ASCII digit test (`str.isdigit` on the hosts the script sees). -/
def pyIsDigit (c : Char) : Bool := 48 ≤ c.toNat && c.toNat ≤ 57

/-- Lines 32–33 of `customize-project.py`: strip `https://`, `http://` and
`www.` (each via `str.replace`, i.e. every occurrence), then truncate at the
first `/`, `?` and `:`. -/
def cleanHost (h : List Char) : List Char :=
  takeUntilChar ':' (takeUntilChar '?' (takeUntilChar '/'
    (replaceAll (replaceAll (replaceAll h (cl "https://") []) (cl "http://") [])
      (cl "www.") [])))

/-- Line 34: the nonempty dot-fragments of the cleaned host. -/
def hostParts (h : List Char) : List (List Char) :=
  (splitOnChar '.' (cleanHost h)).filter (fun p => p ≠ [])

/-- Lines 35–38: reverse the fragments when there are at least two, otherwise
fall back to a `com.` prefix or the fixed default. -/
def rawPackageName (h : List Char) : List Char :=
  if (hostParts h).length ≥ 2 then joinDot (hostParts h).reverse
  else if hostParts h ≠ [] then cl "com." ++ cleanHost h
  else cl "com.webapp.generated"

/-- Line 42–43: prepend `a` when the segment starts with a digit (checked
*before* the stripping of line 44). -/
def digitPad (seg : List Char) : List Char :=
  match seg with
  | [] => []
  | c :: _ => if pyIsDigit c then 'a' :: seg else seg

/-- Lines 41–46, one loop iteration: digit-pad, then strip every character
outside `[A-Za-z0-9_]`. -/
def cleanSegment (seg : List Char) : List Char :=
  (digitPad seg).filter (fun c => wordChar c)

/-- Line 48–49: pad the segment list to at least two entries. -/
def padTwo (segs : List (List Char)) : List (List Char) :=
  if segs.length < 2 then cl "com" :: cl "webapp" :: segs else segs

/-- Lines 40–51 of `generate_package_name`: clean each dot-segment, drop the
ones that become empty, pad to two segments, join and lowercase. -/
def finalSegments (h : List Char) : List (List Char) :=
  padTwo (((splitOnChar '.' (rawPackageName h)).map cleanSegment).filter
    (fun s => s ≠ []))

/-- `generate_package_name` (lines 30–56).  The `try`/`except` wrapper never
fires: every operation in the body is total, so the embedding is the body. -/
def generate_package_name (h : List Char) : List Char :=
  (joinDot (finalSegments h)).map pyLower


theorem toNat_ofNat_valid {n : Nat} (h : n.isValidChar) : (Char.ofNat n).toNat = n := by
  simp only [Char.ofNat, dif_pos h, Char.ofNatAux, Char.toNat, UInt32.toNat]
  rfl

theorem pyLower_lowWord {c : Char} (h : wordChar c = true) :
    lowWordChar (pyLower c) = true := by
  simp only [wordChar, Bool.or_eq_true, Bool.and_eq_true, decide_eq_true_eq] at h
  unfold pyLower
  rcases h with ((h | h) | h) | h
  · rw [if_pos (by omega)]
    have hv : (c.toNat + 32).isValidChar := Or.inl (by omega)
    simp only [lowWordChar, toNat_ofNat_valid hv, Bool.or_eq_true, Bool.and_eq_true,
      decide_eq_true_eq]
    omega
  · rw [if_neg (by omega)]
    simp only [lowWordChar, Bool.or_eq_true, Bool.and_eq_true, decide_eq_true_eq]
    omega
  · rw [if_neg (by omega)]
    simp only [lowWordChar, Bool.or_eq_true, Bool.and_eq_true, decide_eq_true_eq]
    omega
  · rw [if_neg (by omega)]
    simp only [lowWordChar, Bool.or_eq_true, Bool.and_eq_true, decide_eq_true_eq]
    omega

theorem lowWordChar_ne_dot {c : Char} (h : lowWordChar c = true) : c ≠ '.' := by
  intro he
  rw [he] at h
  simp [lowWordChar] at h

theorem splitOnChar_ne_nil (sep : Char) (s : List Char) : splitOnChar sep s ≠ [] := by
  cases s with
  | nil => simp [splitOnChar]
  | cons c t =>
    unfold splitOnChar
    by_cases h : c = sep
    · simp [h]
    · rw [if_neg h]
      cases hs : splitOnChar sep t <;> simp

theorem splitOnChar_append {sep : Char} {s x : List Char} {y : List Char}
    {ys : List (List Char)} (h : ∀ c ∈ s, c ≠ sep)
    (hx : splitOnChar sep x = y :: ys) :
    splitOnChar sep (s ++ x) = (s ++ y) :: ys := by
  induction s with
  | nil => simpa using hx
  | cons a t ih =>
    have ha : a ≠ sep := h a (by simp)
    have ht := ih (fun c hc => h c (by simp [hc]))
    rw [List.cons_append]
    unfold splitOnChar
    rw [if_neg ha]
    rw [ht]
    simp

theorem splitOnChar_single {sep : Char} {s : List Char} (h : ∀ c ∈ s, c ≠ sep) :
    splitOnChar sep s = [s] := by
  have := @splitOnChar_append sep s [] [] [] h rfl
  simpa using this

theorem map_joinDot (f : Char → Char) (hf : f '.' = '.') :
    ∀ L : List (List Char), (joinDot L).map f = joinDot (L.map (List.map f))
  | [] => by simp [joinDot]
  | [s] => by simp [joinDot]
  | s :: r :: rs => by
    have := map_joinDot f hf (r :: rs)
    simp only [joinDot, List.map_append, List.map_cons, hf, this]

theorem splitOnChar_joinDot :
    ∀ L : List (List Char), L ≠ [] → (∀ s ∈ L, ∀ c ∈ s, c ≠ '.') →
      splitOnChar '.' (joinDot L) = L
  | [], h, _ => absurd rfl h
  | [s], _, hc => by
    rw [show joinDot [s] = s from rfl]
    exact splitOnChar_single (hc s (by simp))
  | s :: r :: rs, _, hc => by
    have ih := splitOnChar_joinDot (r :: rs) (by simp)
      (fun t ht => hc t (by simp [ht]))
    rw [show joinDot (s :: r :: rs) = s ++ '.' :: joinDot (r :: rs) from rfl]
    have hdot : splitOnChar '.' ('.' :: joinDot (r :: rs)) = [] :: (r :: rs) := by
      simp only [splitOnChar, if_true]
      rw [ih]
    have := splitOnChar_append (hc s (by simp)) hdot
    simpa using this

theorem cleanSegment_all (seg : List Char) : (cleanSegment seg).all wordChar = true := by
  rw [List.all_eq_true]
  intro c hc
  unfold cleanSegment at hc
  rw [List.mem_filter] at hc
  exact hc.2

theorem finalSegments_spec (h : List Char) :
    2 ≤ (finalSegments h).length ∧
      ∀ s ∈ finalSegments h, s ≠ [] ∧ s.all wordChar = true := by
  unfold finalSegments padTwo
  set segs := ((splitOnChar '.' (rawPackageName h)).map cleanSegment).filter
    (fun s => s ≠ []) with hsegs
  have hmem : ∀ s ∈ segs, s ≠ [] ∧ s.all wordChar = true := by
    intro s hs
    rw [hsegs, List.mem_filter] at hs
    obtain ⟨hs1, hs2⟩ := hs
    refine ⟨by simpa using hs2, ?_⟩
    rw [List.mem_map] at hs1
    obtain ⟨t, _, rfl⟩ := hs1
    exact cleanSegment_all t
  split
  · refine ⟨by simp, ?_⟩
    intro s hs
    rw [List.mem_cons, List.mem_cons] at hs
    rcases hs with rfl | rfl | h1
    · exact ⟨by simp [cl], by decide⟩
    · exact ⟨by simp [cl], by decide⟩
    · exact hmem s h1
  · next hge => exact ⟨by omega, hmem⟩


def claimSegOk (s : List Char) : Bool :=
  match s with
  | [] => false
  | c :: t => (97 ≤ c.toNat && c.toNat ≤ 122) && t.all lowWordChar

def claimIdentOk (s : List Char) : Bool :=
  decide (2 ≤ (splitOnChar '.' s).length) && (splitOnChar '.' s).all claimSegOk

/-- Claim C1 (amended): for every hostName, `generate_package_name` returns
at least 2 dot-separated segments, each nonempty and made of `[a-z0-9_]`
characters only.  The original claim's `[a-z]` leading character is refuted
by `c1_counterexample`: a segment may start with a digit. -/
theorem c1_generate_shape (h : List Char) :
    2 ≤ (splitOnChar '.' (generate_package_name h)).length ∧
      ∀ s ∈ splitOnChar '.' (generate_package_name h),
        s ≠ [] ∧ s.all lowWordChar = true := by
  obtain ⟨hlen, hseg⟩ := finalSegments_spec h
  have hmap : generate_package_name h =
      joinDot ((finalSegments h).map (List.map pyLower)) :=
    map_joinDot pyLower (by decide) (finalSegments h)
  have hchar : ∀ s ∈ (finalSegments h).map (List.map pyLower),
      s ≠ [] ∧ s.all lowWordChar = true := by
    intro s hs
    rw [List.mem_map] at hs
    obtain ⟨t, ht, rfl⟩ := hs
    obtain ⟨ht1, ht2⟩ := hseg t ht
    refine ⟨by simpa using ht1, ?_⟩
    rw [List.all_eq_true] at ht2 ⊢
    intro c hc
    rw [List.mem_map] at hc
    obtain ⟨a, ha, rfl⟩ := hc
    exact pyLower_lowWord (ht2 a ha)
  have hsplit : splitOnChar '.' (generate_package_name h) =
      (finalSegments h).map (List.map pyLower) := by
    rw [hmap]
    apply splitOnChar_joinDot
    · intro he
      rw [List.map_eq_nil_iff] at he
      rw [he] at hlen
      simp at hlen
    · intro s hs c hc
      obtain ⟨_, h2⟩ := hchar s hs
      rw [List.all_eq_true] at h2
      exact lowWordChar_ne_dot (h2 c hc)
  rw [hsplit]
  refine ⟨?_, hchar⟩
  simpa using hlen

/-- Claim C1, counterexample: hostName `a.-1b` yields `1b.a`, whose first
segment starts with a digit, outside `[a-z][a-z0-9_]*`. -/
theorem c1_counterexample :
    generate_package_name (cl "a.-1b") = cl "1b.a" ∧
      claimIdentOk (generate_package_name (cl "a.-1b")) = false := by decide

def occursB (pat : List Char) : List Char → Bool
  | [] => pat.isPrefixOf []
  | c :: t => pat.isPrefixOf (c :: t) || occursB pat t

def stripPrefix (pre s : List Char) : List Char :=
  if pre.isPrefixOf s then s.drop pre.length else s

def specBareHost (h : List Char) : List Char :=
  takeUntilChar ':' (takeUntilChar '?' (takeUntilChar '/'
    (stripPrefix (cl "www.") (stripPrefix (cl "http://")
      (stripPrefix (cl "https://") h)))))

theorem replaceAll_not_occurs {pat : List Char} (hp : pat ≠ []) {rep : List Char} :
    ∀ {s : List Char}, occursB pat s = false → replaceAll s pat rep = s := by
  intro s
  induction s with
  | nil => intro _; rfl
  | cons c t ih =>
    intro ho
    simp only [occursB, Bool.or_eq_false_iff] at ho
    rw [replaceAll_cons hp, if_neg (by rw [ho.1]; exact Bool.false_ne_true)]
    rw [ih ho.2]

theorem replaceAll_strip {pat r : List Char} (hp : pat ≠ []) :
    replaceAll (pat ++ r) pat [] = replaceAll r pat [] := by
  cases pat with
  | nil => exact absurd rfl hp
  | cons p pt =>
    rw [List.cons_append, replaceAll_cons hp,
      if_pos (by rw [List.isPrefixOf_iff_prefix]; exact ⟨r, by simp⟩)]
    simp only [List.nil_append]
    congr 1
    exact List.drop_left (p :: pt) r

-- concrete front-peel facts
theorem occurs_https_www {r : List Char} (h : occursB (cl "https://") r = false) :
    occursB (cl "https://") (cl "www." ++ r) = false := by
  simp only [cl] at *
  simp [occursB, List.isPrefixOf, h]

theorem occurs_https_http {r : List Char} (h : occursB (cl "https://") r = false) :
    occursB (cl "https://") (cl "http://" ++ r) = false := by
  simp only [cl] at *
  simp [occursB, List.isPrefixOf, h]


theorem not_prefix_of_not_occurs {pat s : List Char} (h : occursB pat s = false) :
    pat.isPrefixOf s = false := by
  cases s with
  | nil => exact h
  | cons c t =>
    simp only [occursB, Bool.or_eq_false_iff] at h
    exact h.1

theorem occurs_http_www {r : List Char} (h : occursB (cl "http://") r = false) :
    occursB (cl "http://") (cl "www." ++ r) = false := by
  simp only [cl] at *
  simp [occursB, List.isPrefixOf, h]

theorem occurs_www_http {r : List Char} (h : occursB (cl "www.") r = false) :
    occursB (cl "www.") (cl "http://" ++ r) = false := by
  simp only [cl] at *
  simp [occursB, List.isPrefixOf, h]

theorem stripPrefix_strip (pre r : List Char) :
    stripPrefix pre (pre ++ r) = r := by
  unfold stripPrefix
  rw [if_pos (by rw [List.isPrefixOf_iff_prefix]; exact ⟨r, rfl⟩)]
  exact List.drop_left pre r

theorem stripPrefix_skip {pre s : List Char} (h : pre.isPrefixOf s = false) :
    stripPrefix pre s = s := by
  unfold stripPrefix
  rw [if_neg (by rw [h]; exact Bool.false_ne_true)]

/-- The truncation step shared by the code and the claim. -/
def truncHost (r : List Char) : List Char :=
  takeUntilChar ':' (takeUntilChar '?' (takeUntilChar '/' r))

theorem cleanHost_forms (r : List Char)
    (h1 : occursB (cl "https://") r = false)
    (h2 : occursB (cl "http://") r = false)
    (h3 : occursB (cl "www.") r = false) :
    cleanHost (cl "https://www." ++ r) = truncHost r ∧
    cleanHost (cl "http://www." ++ r) = truncHost r ∧
    cleanHost (cl "https://" ++ r) = truncHost r ∧
    cleanHost (cl "http://" ++ r) = truncHost r ∧
    cleanHost (cl "www." ++ r) = truncHost r ∧
    cleanHost r = truncHost r := by
  have hne1 : cl "https://" ≠ ([] : List Char) := by decide
  have hne2 : cl "http://" ≠ ([] : List Char) := by decide
  have hne3 : cl "www." ≠ ([] : List Char) := by decide
  refine ⟨?_, ?_, ?_, ?_, ?_, ?_⟩
  · show takeUntilChar ':' (takeUntilChar '?' (takeUntilChar '/' _)) = _
    rw [show cl "https://www." ++ r = cl "https://" ++ (cl "www." ++ r) from rfl,
      replaceAll_strip hne1,
      replaceAll_not_occurs hne1 (occurs_https_www h1),
      replaceAll_not_occurs hne2 (occurs_http_www h2),
      replaceAll_strip hne3,
      replaceAll_not_occurs hne3 h3]
    rfl
  · show takeUntilChar ':' (takeUntilChar '?' (takeUntilChar '/' _)) = _
    rw [show cl "http://www." ++ r = cl "http://" ++ (cl "www." ++ r) from rfl,
      replaceAll_not_occurs hne1 (occurs_https_http (occurs_https_www h1)),
      replaceAll_strip hne2,
      replaceAll_not_occurs hne2 (occurs_http_www h2),
      replaceAll_strip hne3,
      replaceAll_not_occurs hne3 h3]
    rfl
  · show takeUntilChar ':' (takeUntilChar '?' (takeUntilChar '/' _)) = _
    rw [replaceAll_strip hne1,
      replaceAll_not_occurs hne1 h1,
      replaceAll_not_occurs hne2 h2,
      replaceAll_not_occurs hne3 h3]
    rfl
  · show takeUntilChar ':' (takeUntilChar '?' (takeUntilChar '/' _)) = _
    rw [replaceAll_not_occurs hne1 (occurs_https_http h1),
      replaceAll_strip hne2,
      replaceAll_not_occurs hne2 h2,
      replaceAll_not_occurs hne3 h3]
    rfl
  · show takeUntilChar ':' (takeUntilChar '?' (takeUntilChar '/' _)) = _
    rw [replaceAll_not_occurs hne1 (occurs_https_www h1),
      replaceAll_not_occurs hne2 (occurs_http_www h2),
      replaceAll_strip hne3,
      replaceAll_not_occurs hne3 h3]
    rfl
  · show takeUntilChar ':' (takeUntilChar '?' (takeUntilChar '/' _)) = _
    rw [replaceAll_not_occurs hne1 h1,
      replaceAll_not_occurs hne2 h2,
      replaceAll_not_occurs hne3 h3]
    rfl

theorem specBareHost_forms (r : List Char)
    (h1 : occursB (cl "https://") r = false)
    (h2 : occursB (cl "http://") r = false)
    (h3 : occursB (cl "www.") r = false) :
    specBareHost (cl "https://www." ++ r) = truncHost r ∧
    specBareHost (cl "http://www." ++ r) = truncHost r ∧
    specBareHost (cl "https://" ++ r) = truncHost r ∧
    specBareHost (cl "http://" ++ r) = truncHost r ∧
    specBareHost (cl "www." ++ r) = truncHost r ∧
    specBareHost r = truncHost r := by
  refine ⟨?_, ?_, ?_, ?_, ?_, ?_⟩
  · show takeUntilChar ':' (takeUntilChar '?' (takeUntilChar '/' _)) = _
    rw [show cl "https://www." ++ r = cl "https://" ++ (cl "www." ++ r) from rfl,
      stripPrefix_strip,
      stripPrefix_skip (not_prefix_of_not_occurs (occurs_http_www h2)),
      stripPrefix_strip]
    rfl
  · show takeUntilChar ':' (takeUntilChar '?' (takeUntilChar '/' _)) = _
    rw [show cl "http://www." ++ r = cl "http://" ++ (cl "www." ++ r) from rfl,
      stripPrefix_skip (not_prefix_of_not_occurs (occurs_https_http (occurs_https_www h1))),
      stripPrefix_strip,
      stripPrefix_strip]
    rfl
  · show takeUntilChar ':' (takeUntilChar '?' (takeUntilChar '/' _)) = _
    rw [stripPrefix_strip,
      stripPrefix_skip (not_prefix_of_not_occurs h2),
      stripPrefix_skip (not_prefix_of_not_occurs h3)]
    rfl
  · show takeUntilChar ':' (takeUntilChar '?' (takeUntilChar '/' _)) = _
    rw [stripPrefix_skip (not_prefix_of_not_occurs (occurs_https_http h1)),
      stripPrefix_strip,
      stripPrefix_skip (not_prefix_of_not_occurs h3)]
    rfl
  · show takeUntilChar ':' (takeUntilChar '?' (takeUntilChar '/' _)) = _
    rw [stripPrefix_skip (not_prefix_of_not_occurs (occurs_https_www h1)),
      stripPrefix_skip (not_prefix_of_not_occurs (occurs_http_www h2)),
      stripPrefix_strip]
    rfl
  · show takeUntilChar ':' (takeUntilChar '?' (takeUntilChar '/' _)) = _
    rw [stripPrefix_skip (not_prefix_of_not_occurs h1),
      stripPrefix_skip (not_prefix_of_not_occurs h2),
      stripPrefix_skip (not_prefix_of_not_occurs h3)]
    rfl


/-- Claim C6 (amended): when the remainder `r` contains no further
occurrence of `https://`, `http://` or `www.`, the stripping and the
truncation at the first `/`, `?` and `:` behave exactly as the spec says
on all six prefix forms, and the dot-fragments feeding later steps are the
nonempty dot-fragments of the bare host.  The original claim's `only at
the start of the host` is refuted by `c6_counterexample`: `str.replace`
strips every occurrence of the three literals, wherever it stands. -/
theorem c6_stripping (r : List Char)
    (h1 : occursB (cl "https://") r = false)
    (h2 : occursB (cl "http://") r = false)
    (h3 : occursB (cl "www.") r = false) :
    (cleanHost (cl "https://www." ++ r) = specBareHost (cl "https://www." ++ r) ∧
     cleanHost (cl "http://www." ++ r) = specBareHost (cl "http://www." ++ r) ∧
     cleanHost (cl "https://" ++ r) = specBareHost (cl "https://" ++ r) ∧
     cleanHost (cl "http://" ++ r) = specBareHost (cl "http://" ++ r) ∧
     cleanHost (cl "www." ++ r) = specBareHost (cl "www." ++ r) ∧
     cleanHost r = specBareHost r) ∧
    hostParts (cl "https://www." ++ r) =
      (splitOnChar '.' (specBareHost (cl "https://www." ++ r))).filter
        (fun p => p ≠ []) := by
  obtain ⟨a1, a2, a3, a4, a5, a6⟩ := cleanHost_forms r h1 h2 h3
  obtain ⟨b1, b2, b3, b4, b5, b6⟩ := specBareHost_forms r h1 h2 h3
  refine ⟨⟨a1.trans b1.symm, a2.trans b2.symm, a3.trans b3.symm,
    a4.trans b4.symm, a5.trans b5.symm, a6.trans b6.symm⟩, ?_⟩
  unfold hostParts
  rw [a1.trans b1.symm]

/-- Claim C6, counterexample: hostName `awww.example.com` has `www.` not at
the start, yet it is removed, giving bare host `aexample.com`. -/
theorem c6_counterexample :
    cleanHost (cl "awww.example.com") = cl "aexample.com" ∧
      hostParts (cl "awww.example.com") ≠
        (splitOnChar '.' (specBareHost (cl "awww.example.com"))).filter
          (fun p => p ≠ []) := by decide

/-- Claim C6, witness: the amended theorem applied to remainder
`example.com/app?x=1`. -/
theorem c6_witness :
    (occursB (cl "https://") (cl "example.com/app?x=1") = false ∧
     occursB (cl "http://") (cl "example.com/app?x=1") = false ∧
     occursB (cl "www.") (cl "example.com/app?x=1") = false) ∧
    cleanHost (cl "https://www.example.com/app?x=1") =
      specBareHost (cl "https://www.example.com/app?x=1") :=
  ⟨⟨by decide, by decide, by decide⟩,
    ((c6_stripping (cl "example.com/app?x=1") (by decide) (by decide)
      (by decide)).1).1⟩


/-- Opening literal of the pattern `<string name="TAG">[^<]*</string>`
(from `update_strings_xml`, lines 102–103). -/
def litA (tag : List Char) : List Char := cl "<string name=\"" ++ tag ++ cl "\">"

/-- Closing literal of the pattern. -/
def litB : List Char := cl "</string>"

/-- Head matcher for `re.sub`'s pattern `<string name="TAG">[^<]*</string>`:
greedy `[^<]*` is deterministic because `</string>` starts with `<`.  Returns
the matched value and the remainder after the match. -/
def mA (tag s : List Char) : Option (List Char × List Char) :=
  if (litA tag).isPrefixOf s then
    let r := s.drop (litA tag).length
    let v := r.takeWhile (fun c => c ≠ ltc)
    let r2 := r.drop v.length
    if litB.isPrefixOf r2 then some (v, r2.drop litB.length) else none
  else none

/-- Fuel-driven worker for `subA`. -/
def subAF : Nat → List Char → List Char → List Char → List Char
  | _, _, _, [] => []
  | 0, _, _, s => s
  | fuel + 1, tag, rep, c :: t =>
    match mA tag (c :: t) with
    | some (_, rest) => litA tag ++ rep ++ litB ++ subAF fuel tag rep rest
    | none => c :: subAF fuel tag rep t

/-- `re.sub` with pattern `<string name="TAG">[^<]*</string>` and replacement
`<string name="TAG">REP</string>`: leftmost scan, all non-overlapping
occurrences replaced.  `REP` stands for an already escape-expanded value;
the template processing itself is `expandTemplate` below, and `subAR` the
substitution with an arbitrary expanded template. -/
def subA (tag rep s : List Char) : List Char := subAF s.length tag rep s

theorem litA_length (tag : List Char) : (litA tag).length = 16 + tag.length := by
  simp [litA, cl]
  omega

theorem drop_takeWhile_length (p : Char → Bool) :
    ∀ l : List Char, l.drop (l.takeWhile p).length = l.dropWhile p := by
  intro l
  induction l with
  | nil => rfl
  | cons a t ih =>
    by_cases h : p a
    · rw [List.takeWhile_cons_of_pos h, List.dropWhile_cons_of_pos h]
      simpa using ih
    · rw [List.takeWhile_cons_of_neg h, List.dropWhile_cons_of_neg h]
      rfl

theorem mA_inv {tag s v rest : List Char} (h : mA tag s = some (v, rest)) :
    s = litA tag ++ v ++ litB ++ rest ∧ ∀ c ∈ v, c ≠ ltc := by
  unfold mA at h
  by_cases hpre : (litA tag).isPrefixOf s
  · rw [if_pos hpre] at h
    simp only at h
    by_cases hb : litB.isPrefixOf
        ((s.drop (litA tag).length).drop
          ((s.drop (litA tag).length).takeWhile (fun c => c ≠ ltc)).length)
    · rw [if_pos hb] at h
      injection h with h'
      injection h' with hv hrest
      rw [List.isPrefixOf_iff_prefix] at hpre
      obtain ⟨r, hr⟩ := hpre
      have hdrop : s.drop (litA tag).length = r := by
        rw [← hr]
        exact List.drop_left _ _
      rw [List.isPrefixOf_iff_prefix] at hb
      obtain ⟨rest', hrest'⟩ := hb
      rw [hdrop] at hrest' hv hrest
      rw [drop_takeWhile_length] at hrest' hrest
      constructor
      · rw [← hr, ← hv, ← hrest, ← hrest']
        rw [List.drop_left]
        calc litA tag ++ r
            = litA tag ++ (r.takeWhile (fun c => c ≠ ltc) ++
                r.dropWhile (fun c => c ≠ ltc)) := by
              rw [List.takeWhile_append_dropWhile]
          _ = litA tag ++ r.takeWhile (fun c => c ≠ ltc) ++
                (litB ++ rest') := by rw [hrest']; simp
          _ = litA tag ++ r.takeWhile (fun c => c ≠ ltc) ++ litB ++ rest' := by
              simp
      · intro c hc
        rw [← hv] at hc
        have := List.mem_takeWhile_imp hc
        simpa using this
    · rw [if_neg hb] at h
      exact absurd h (by simp)
  · rw [if_neg hpre] at h
    exact absurd h (by simp)

theorem takeWhile_append_head {p : Char → Bool} {v w : List Char}
    (hv : ∀ c ∈ v, p c = true) {b : Char} (hb : p b = false) :
    (v ++ b :: w).takeWhile p = v := by
  induction v with
  | nil => simp [hb]
  | cons a t ih =>
    have ha : p a = true := hv a (by simp)
    show List.takeWhile p (a :: (t ++ b :: w)) = a :: t
    rw [List.takeWhile_cons_of_pos ha]
    rw [ih (fun c hc => hv c (by simp [hc]))]

theorem litB_head : litB = ltc :: cl "/string>" := rfl

theorem mA_of_shape {tag v rest : List Char} (hv : ∀ c ∈ v, c ≠ ltc) :
    mA tag (litA tag ++ v ++ litB ++ rest) = some (v, rest) := by
  unfold mA
  have hpre : (litA tag).isPrefixOf (litA tag ++ v ++ litB ++ rest) = true := by
    rw [List.isPrefixOf_iff_prefix]
    exact ⟨v ++ litB ++ rest, by simp⟩
  rw [if_pos hpre]
  simp only
  have h1 : (litA tag ++ v ++ litB ++ rest).drop (litA tag).length =
      v ++ litB ++ rest := by
    have he : litA tag ++ v ++ litB ++ rest = litA tag ++ (v ++ litB ++ rest) := by
      simp
    rw [he]
    exact List.drop_left _ _
  rw [h1]
  have h2 : (v ++ litB ++ rest).takeWhile (fun c => c ≠ ltc) = v := by
    have he : v ++ litB ++ rest = v ++ (ltc :: (cl "/string>" ++ rest)) := by
      rw [litB_head]; simp
    rw [he]
    exact takeWhile_append_head (fun c hc => by simpa using hv c hc) (by simp)
  rw [h2]
  have h3 : (v ++ litB ++ rest).drop v.length = litB ++ rest := by
    have he : v ++ litB ++ rest = v ++ (litB ++ rest) := by simp
    rw [he]
    exact List.drop_left _ _
  rw [h3]
  have h4 : litB.isPrefixOf (litB ++ rest) = true := by
    rw [List.isPrefixOf_iff_prefix]
    exact ⟨rest, rfl⟩
  rw [if_pos h4]
  rw [List.drop_left]

theorem mA_rest_length {tag s v rest : List Char} (h : mA tag s = some (v, rest)) :
    s.length = 25 + tag.length + v.length + rest.length := by
  obtain ⟨hs, _⟩ := mA_inv h
  rw [hs]
  simp [litA_length, litB, cl]
  omega


theorem subAF_fuel (tag rep : List Char) :
    ∀ (f₁ f₂ : Nat) (s : List Char), s.length ≤ f₁ → s.length ≤ f₂ →
      subAF f₁ tag rep s = subAF f₂ tag rep s := by
  intro f₁
  induction f₁ with
  | zero =>
    intro f₂ s h₁ _
    cases s with
    | nil => cases f₂ <;> rfl
    | cons c t => simp at h₁
  | succ f ih =>
    intro f₂ s h₁ h₂
    cases s with
    | nil => cases f₂ <;> rfl
    | cons c t =>
      cases f₂ with
      | zero => simp at h₂
      | succ f' =>
        simp only [subAF]
        cases hm : mA tag (c :: t) with
        | none => rw [ih f' t (by simp at h₁; omega) (by simp at h₂; omega)]
        | some p =>
          obtain ⟨v, rest⟩ := p
          have hlen := mA_rest_length hm
          simp only [List.length_cons] at h₁ h₂ hlen
          show litA tag ++ rep ++ litB ++ subAF f tag rep rest =
            litA tag ++ rep ++ litB ++ subAF f' tag rep rest
          rw [ih f' rest (by omega) (by omega)]

theorem subA_nil (tag rep : List Char) : subA tag rep [] = [] := rfl

theorem subA_cons_match {tag rep : List Char} {ch : Char} {t v rest : List Char}
    (hm : mA tag (ch :: t) = some (v, rest)) :
    subA tag rep (ch :: t) = litA tag ++ rep ++ litB ++ subA tag rep rest := by
  have hlen := mA_rest_length hm
  simp only [List.length_cons] at hlen
  show subAF (t.length + 1) tag rep (ch :: t) = _
  simp only [subAF]
  rw [hm]
  show litA tag ++ rep ++ litB ++ subAF t.length tag rep rest =
    litA tag ++ rep ++ litB ++ subA tag rep rest
  rw [subAF_fuel tag rep t.length rest.length rest (by omega) (Nat.le_refl _)]
  rfl

theorem subA_cons_none {tag rep : List Char} {ch : Char} {t : List Char}
    (hm : mA tag (ch :: t) = none) :
    subA tag rep (ch :: t) = ch :: subA tag rep t := by
  show subAF (t.length + 1) tag rep (ch :: t) = _
  simp only [subAF]
  rw [hm]
  rfl

theorem subA_match {tag rep v rest : List Char} (hv : ∀ c ∈ v, c ≠ ltc) :
    subA tag rep (litA tag ++ v ++ litB ++ rest) =
      litA tag ++ rep ++ litB ++ subA tag rep rest := by
  have hm := @mA_of_shape tag v rest hv
  have hne : litA tag ++ v ++ litB ++ rest ≠ [] := by
    intro he
    have := congrArg List.length he
    simp [litA_length, litB, cl] at this
  cases hs : litA tag ++ v ++ litB ++ rest with
  | nil => exact absurd hs hne
  | cons ch t =>
    rw [hs] at hm
    exact subA_cons_match hm


theorem litA_expand (tag : List Char) :
    litA tag = ltc :: 's' :: (cl "tring name=\"" ++ (tag ++ cl "\">")) := rfl

theorem litB_expand : litB = ltc :: '/' :: cl "string>" := rfl

theorem mA_none_of_not_pref {tag s : List Char}
    (h : ¬ litA tag <+: s) : mA tag s = none := by
  unfold mA
  rw [if_neg (by rw [List.isPrefixOf_iff_prefix]; exact h)]

theorem mA_none_head {tag : List Char} {c : Char} (hc : c ≠ ltc) (t : List Char) :
    mA tag (c :: t) = none := by
  apply mA_none_of_not_pref
  intro hp
  obtain ⟨z, hz⟩ := hp
  rw [litA_expand, List.cons_append] at hz
  have hh := congrArg List.head? hz
  simp at hh
  exact hc hh.symm

theorem subA_free {tag rep : List Char} :
    ∀ {P : List Char}, (∀ a ∈ P, a ≠ ltc) → ∀ (X : List Char),
      subA tag rep (P ++ X) = P ++ subA tag rep X := by
  intro P
  induction P with
  | nil => intro _ X; rfl
  | cons a P' ih =>
    intro hP X
    have ha : a ≠ ltc := hP a (by simp)
    rw [List.cons_append, subA_cons_none (mA_none_head ha _),
      ih (fun c hc => hP c (by simp [hc])) X]
    rfl

theorem subA_copy {tag rep : List Char} :
    ∀ {w t z : List Char}, (∀ a ∈ w, a ≠ ltc) → subA tag rep t = w ++ z →
      ∃ t', t = w ++ t' ∧ subA tag rep t' = z := by
  intro w
  induction w with
  | nil => intro t z _ h; exact ⟨t, rfl, h⟩
  | cons a w' ih =>
    intro t z hw h
    have ha : a ≠ ltc := hw a (by simp)
    cases t with
    | nil => simp [subA_nil] at h
    | cons c t₂ =>
      cases hm : mA tag (c :: t₂) with
      | some p =>
        obtain ⟨v, rest⟩ := p
        rw [subA_cons_match hm] at h
        rw [litA_expand] at h
        simp only [List.cons_append] at h
        have hh := congrArg List.head? h
        simp at hh
        exact absurd hh.symm ha
      | none =>
        rw [subA_cons_none hm] at h
        rw [List.cons_append] at h
        have hca : c = a := by
          have := congrArg List.head? h
          simpa using this
        have htail : subA tag rep t₂ = w' ++ z := by
          have := congrArg List.tail h
          simpa using this
        obtain ⟨t', ht', hs'⟩ := ih (fun b hb => hw b (by simp [hb])) htail
        exact ⟨t', by rw [ht', hca]; rfl, hs'⟩


/-- Everything in `litA tag` after the leading `<`. -/
def litAtail (tag : List Char) : List Char := cl "string name=\"" ++ (tag ++ cl "\">")

/-- Everything in `litB` after the leading `<`. -/
def litBtail : List Char := cl "/string>"

theorem litA_cons (tag : List Char) : litA tag = ltc :: litAtail tag := rfl

theorem litB_cons : litB = ltc :: litBtail := rfl

theorem litAtail_free {tag : List Char} (hτ : ∀ c ∈ tag, c ≠ ltc) :
    ∀ a ∈ litAtail tag, a ≠ ltc := by
  have h1 : ∀ a ∈ cl "string name=\"", a ≠ ltc := by decide
  have h2 : ∀ a ∈ cl "\">", a ≠ ltc := by decide
  intro a ha
  unfold litAtail at ha
  rw [List.mem_append] at ha
  rcases ha with ha | ha
  · exact h1 a ha
  · rw [List.mem_append] at ha
    rcases ha with ha | ha
    · exact hτ a ha
    · exact h2 a ha

theorem litBtail_free : ∀ a ∈ litBtail, a ≠ ltc := by decide

theorem mA_nonew {τ ν repν : List Char} (hτ : ∀ c ∈ τ, c ≠ ltc) {c : Char}
    {t : List Char} (h : mA τ (c :: t) = none) :
    mA τ (c :: subA ν repν t) = none := by
  cases hm2 : mA τ (c :: subA ν repν t) with
  | none => rfl
  | some p =>
    exfalso
    obtain ⟨v, rest⟩ := p
    obtain ⟨hs, hv⟩ := mA_inv hm2
    rw [litA_cons] at hs
    simp only [List.cons_append, List.append_assoc] at hs
    injection hs with hc hs
    have hw : ∀ a ∈ litAtail τ ++ (v ++ [] : List Char), a ≠ ltc := by
      intro a ha
      rw [List.mem_append] at ha
      rcases ha with ha | ha
      · exact litAtail_free hτ a ha
      · rw [List.mem_append] at ha
        rcases ha with ha | ha
        · exact hv a ha
        · simp at ha
    have hs' : subA ν repν t = (litAtail τ ++ v) ++ (litB ++ rest) := by
      rw [hs]; simp
    obtain ⟨t₂, ht₂, hsub₂⟩ := subA_copy
      (w := litAtail τ ++ v)
      (fun a ha => by
        rw [List.mem_append] at ha
        rcases ha with ha | ha
        · exact litAtail_free hτ a ha
        · exact hv a ha) hs'
    cases t₂ with
    | nil =>
      rw [subA_nil] at hsub₂
      have := congrArg List.length hsub₂
      simp [litB, cl] at this
    | cons d t₃ =>
      cases hm3 : mA ν (d :: t₃) with
      | some q =>
        obtain ⟨v₂, r₂⟩ := q
        rw [subA_cons_match hm3] at hsub₂
        rw [litA_expand, litB_expand] at hsub₂
        simp only [List.cons_append, List.append_assoc] at hsub₂
        injection hsub₂ with h1 hsub₂
        injection hsub₂ with h2 hsub₂
        exact absurd h2 (by decide)
      | none =>
        rw [subA_cons_none hm3, litB_cons] at hsub₂
        simp only [List.cons_append] at hsub₂
        injection hsub₂ with hd hsub₂
        obtain ⟨t₄, ht₄, _⟩ := subA_copy (w := litBtail) litBtail_free hsub₂
        have hct : c :: t = litA τ ++ v ++ litB ++ t₄ := by
          rw [ht₂, ht₄, hd, hc, litA_cons, litB_cons]
          simp
        rw [hct, mA_of_shape hv] at h
        exact absurd h (by simp)


theorem subA_idem {tag rep : List Char} (htag : ∀ c ∈ tag, c ≠ ltc)
    (hrep : ∀ c ∈ rep, c ≠ ltc) (s : List Char) :
    subA tag rep (subA tag rep s) = subA tag rep s := by
  suffices H : ∀ n (s : List Char), s.length ≤ n →
      subA tag rep (subA tag rep s) = subA tag rep s from H s.length s (Nat.le_refl _)
  intro n
  induction n with
  | zero =>
    intro s hs
    cases s with
    | nil => rfl
    | cons c t => simp at hs
  | succ n ih =>
    intro s hs
    cases s with
    | nil => rfl
    | cons c t =>
      cases hm : mA tag (c :: t) with
      | some p =>
        obtain ⟨v, rest⟩ := p
        have hlen := mA_rest_length hm
        simp only [List.length_cons] at hs hlen
        rw [subA_cons_match hm, subA_match hrep, ih rest (by omega)]
      | none =>
        rw [subA_cons_none hm, subA_cons_none (mA_nonew htag hm),
          ih t (by simp at hs; omega)]

theorem not_prefix_append {a b z : List Char} (h1 : ¬ a <+: b) (h2 : ¬ b <+: a) :
    ¬ a <+: b ++ z := by
  intro hp
  by_cases hl : a.length ≤ b.length
  · exact h1 (List.prefix_of_prefix_length_le hp (List.prefix_append b z) hl)
  · exact h2 (List.prefix_of_prefix_length_le (List.prefix_append b z) hp (by omega))

theorem not_prefix_litA_litB {τ X : List Char} : ¬ litA τ <+: (litB ++ X) := by
  intro hp
  obtain ⟨z, hz⟩ := hp
  rw [litA_expand, litB_expand] at hz
  simp only [List.cons_append, List.append_assoc] at hz
  injection hz with h1 hz
  injection hz with h2 hz
  exact absurd h2 (by decide)

theorem subA_through_block {τ ν ρ v X : List Char}
    (hν : ∀ c ∈ ν, c ≠ ltc) (hv : ∀ c ∈ v, c ≠ ltc)
    (hc1 : ¬ litA τ <+: litA ν) (hc2 : ¬ litA ν <+: litA τ) :
    subA τ ρ (litA ν ++ v ++ litB ++ X) =
      litA ν ++ v ++ litB ++ subA τ ρ X := by
  have e1 : litA ν ++ v ++ litB ++ X =
      ltc :: ((litAtail ν ++ v) ++ (ltc :: (litBtail ++ X))) := by
    rw [litA_cons, litB_cons]
    simp
  have hnp : ¬ litA τ <+: (ltc :: ((litAtail ν ++ v) ++ (ltc :: (litBtail ++ X)))) := by
    rw [← e1]
    have e2 : litA ν ++ v ++ litB ++ X = litA ν ++ (v ++ litB ++ X) := by simp
    rw [e2]
    exact not_prefix_append hc1 hc2
  have hfree : ∀ a ∈ litAtail ν ++ v, a ≠ ltc := by
    intro a ha
    rw [List.mem_append] at ha
    rcases ha with ha | ha
    · exact litAtail_free hν a ha
    · exact hv a ha
  have hnp2 : ¬ litA τ <+: (ltc :: (litBtail ++ subA τ ρ X)) := by
    rw [show ltc :: (litBtail ++ subA τ ρ X) = litB ++ subA τ ρ X from by
      rw [litB_cons]; rfl]
    exact not_prefix_litA_litB
  rw [e1, subA_cons_none (mA_none_of_not_pref hnp),
    subA_free hfree (ltc :: (litBtail ++ X)),
    subA_cons_none (mA_none_of_not_pref (by
      rw [show ltc :: (litBtail ++ X) = litB ++ X from by rw [litB_cons]; rfl]
      exact not_prefix_litA_litB)),
    subA_free litBtail_free X]
  rw [litA_cons, litB_cons]
  simp

theorem append_lt_inj :
    ∀ {a b x y : List Char}, (∀ c ∈ a, c ≠ ltc) → (∀ c ∈ b, c ≠ ltc) →
      a ++ ltc :: x = b ++ ltc :: y → a = b ∧ x = y := by
  intro a
  induction a with
  | nil =>
    intro b x y _ hb h
    cases b with
    | nil =>
      simp only [List.nil_append] at h
      injection h with _ h2
      exact ⟨rfl, h2⟩
    | cons b0 b' =>
      simp only [List.nil_append, List.cons_append] at h
      injection h with h1 _
      exact absurd h1.symm (hb b0 (by simp))
  | cons a0 a' ih =>
    intro b x y ha hb h
    cases b with
    | nil =>
      simp only [List.nil_append, List.cons_append] at h
      injection h with h1 _
      exact absurd h1 (ha a0 (by simp))
    | cons b0 b' =>
      simp only [List.cons_append] at h
      injection h with h1 h2
      obtain ⟨e1, e2⟩ := ih (fun c hc => ha c (by simp [hc]))
        (fun c hc => hb c (by simp [hc])) h2
      exact ⟨by rw [h1, e1], e2⟩

theorem subA_fix_cross {τ ν repτ repν : List Char}
    (hτ : ∀ c ∈ τ, c ≠ ltc) (hν : ∀ c ∈ ν, c ≠ ltc)
    (hrepτ : ∀ c ∈ repτ, c ≠ ltc) (hrepν : ∀ c ∈ repν, c ≠ ltc)
    (hc1 : ¬ litA τ <+: litA ν) (hc2 : ¬ litA ν <+: litA τ) :
    ∀ y, subA τ repτ y = y → subA τ repτ (subA ν repν y) = subA ν repν y := by
  suffices H : ∀ n (y : List Char), y.length ≤ n → subA τ repτ y = y →
      subA τ repτ (subA ν repν y) = subA ν repν y from
    fun y => H y.length y (Nat.le_refl _)
  intro n
  induction n with
  | zero =>
    intro y hy _
    cases y with
    | nil => rfl
    | cons c t => simp at hy
  | succ n ih =>
    intro y hy H
    cases y with
    | nil => rfl
    | cons c t =>
      cases hmν : mA ν (c :: t) with
      | some p =>
        obtain ⟨v, rest⟩ := p
        obtain ⟨hy_eq, hvfree⟩ := mA_inv hmν
        have hlen := mA_rest_length hmν
        simp only [List.length_cons] at hy hlen
        have hth := subA_through_block (τ := τ) (ρ := repτ) (X := rest)
          hν hvfree hc1 hc2
        rw [hy_eq] at H
        rw [hth] at H
        have H2 := H
        simp only [List.append_assoc] at H2
        have hfix : subA τ repτ rest = rest :=
          List.append_cancel_left (List.append_cancel_left
            (List.append_cancel_left H2))
        rw [hy_eq, subA_match hvfree,
          subA_through_block (τ := τ) (ρ := repτ) hν hrepν hc1 hc2,
          ih rest (by omega) hfix]
      | none =>
        cases hmτ : mA τ (c :: t) with
        | some q =>
          obtain ⟨vτ, rτ⟩ := q
          obtain ⟨hy_eq, hvτ⟩ := mA_inv hmτ
          have hlen := mA_rest_length hmτ
          simp only [List.length_cons] at hy hlen
          rw [subA_cons_match hmτ, hy_eq] at H
          have Hc : repτ ++ (ltc :: (litBtail ++ subA τ repτ rτ)) =
              vτ ++ (ltc :: (litBtail ++ rτ)) := by
            have H3 := H
            simp only [litB_cons, List.append_assoc, List.cons_append] at H3
            exact List.append_cancel_left H3
          obtain ⟨hrv, hx⟩ := append_lt_inj hrepτ hvτ Hc
          have hfix : subA τ repτ rτ = rτ := List.append_cancel_left hx
          have hblock := subA_through_block (τ := ν) (ρ := repν) (X := rτ)
            hτ hvτ hc2 hc1
          rw [hy_eq, hblock, ← hrv, subA_match hrepτ, ih rτ (by omega) hfix]
        | none =>
          rw [subA_cons_none hmν, subA_cons_none (mA_nonew hτ hmτ)]
          rw [subA_cons_none hmτ] at H
          injection H with _ H
          simp only [List.length_cons] at hy
          rw [ih t (by omega) H]


/-- The `app_name` field tag. -/
def tagApp : List Char := cl "app_name"

/-- The `launch_url` field tag. -/
def tagLaunch : List Char := cl "launch_url"

/-- Lines 99 of `update_strings_xml`: strip `https://` and `http://` (every
occurrence, via `str.replace`) from the host. -/
def stripSchemes (h : List Char) : List Char :=
  replaceAll (replaceAll h (cl "https://") []) (cl "http://") []

/-- Lines 97–98: prepend a `/` when the launch URL does not start with one. -/
def ensureSlash (lu : List Char) : List Char :=
  if (cl "/").isPrefixOf lu then lu else '/' :: lu

/-- Lines 96–100: a launch URL that does not start with `http` is resolved
against the scheme-stripped host. -/
def resolveLaunchUrl (host lu : List Char) : List Char :=
  if (cl "http").isPrefixOf lu then lu
  else cl "https://" ++ stripSchemes host ++ ensureSlash lu

/-- Lines 95–104 of `update_strings_xml`: the content transformation (the
`app_name` substitution, then the `launch_url` substitution), in the
backslash-free case where `re.sub` template expansion is the identity.
`stringsXmlSub` below is the general, fallible form. -/
def updateStringsContent (appName host lu content : List Char) : List Char :=
  subA tagLaunch (resolveLaunchUrl host lu) (subA tagApp appName content)

theorem not_prefix_of_isPrefixOf_false {a b : List Char}
    (h : a.isPrefixOf b = false) : ¬ a <+: b := by
  rw [← List.isPrefixOf_iff_prefix]
  simp [h]

theorem updateStrings_idem {appName host lu : List Char}
    (ha : ∀ c ∈ appName, c ≠ ltc)
    (hl : ∀ c ∈ resolveLaunchUrl host lu, c ≠ ltc) (content : List Char) :
    updateStringsContent appName host lu
        (updateStringsContent appName host lu content) =
      updateStringsContent appName host lu content := by
  unfold updateStringsContent
  have hτA : ∀ c ∈ tagApp, c ≠ ltc := by decide
  have hτL : ∀ c ∈ tagLaunch, c ≠ ltc := by decide
  have hp1 : ¬ litA tagApp <+: litA tagLaunch :=
    not_prefix_of_isPrefixOf_false (by decide)
  have hp2 : ¬ litA tagLaunch <+: litA tagApp :=
    not_prefix_of_isPrefixOf_false (by decide)
  have h1 : subA tagApp appName (subA tagApp appName content) =
      subA tagApp appName content := subA_idem hτA ha content
  have h2 := subA_fix_cross hτA hτL ha hl hp1 hp2
    (subA tagApp appName content) h1
  rw [h2]
  exact subA_idem hτL hl _

/-- Octal digit of a replacement-template escape (`sre_parse.OCTDIGITS`). -/
def octDig (c : Char) : Bool := 48 ≤ c.toNat && c.toNat ≤ 55

/-- ASCII letter (`sre_parse.ASCIILETTERS`). -/
def asciiLetter (c : Char) : Bool :=
  (65 ≤ c.toNat && c.toNat ≤ 90) || (97 ≤ c.toNat && c.toNat ≤ 122)

/-- Numeric value of an octal digit. -/
def octVal (c : Char) : Nat := c.toNat - 48

/-- The fixed character escapes of `sre_parse.ESCAPES` legal in a
replacement template. -/
def escChar (c : Char) : Option Char :=
  if c = 'a' then some (Char.ofNat 7)
  else if c = 'b' then some (Char.ofNat 8)
  else if c = 'f' then some (Char.ofNat 12)
  else if c = 'n' then some (Char.ofNat 10)
  else if c = 'r' then some (Char.ofNat 13)
  else if c = 't' then some (Char.ofNat 9)
  else if c = 'v' then some (Char.ofNat 11)
  else if c = '\\' then some '\\'
  else none

/-- One escape of a `re.sub` replacement template, given the characters
after the backslash (`sre_parse.parse_template`): an octal escape (`0` with
up to two octal digits, or three octal digits with value at most 255), a
fixed character escape, or an unknown non-letter escape kept verbatim with
its backslash.  `none` is `re.error`: a trailing backslash, an unknown
ASCII-letter escape, a numeric group reference (the patterns of this
program have no capture groups), or an octal value above 255.  The
`\g<...>` form is also mapped to `none`; against a group-free pattern its
only legal instance is the whole-match reference `\g<0>`, which is not
modelled — every theorem below stays in the backslash-free fragment, where
no escape arises at all.  Returns the emitted text and the remaining
template. -/
def escStep : List Char → Option (List Char × List Char)
  | [] => none
  | d :: r2 =>
    if d = 'g' then none
    else if d = '0' then
      match r2 with
      | e :: r3 =>
        if octDig e then
          match r3 with
          | f :: r4 =>
            if octDig f then some ([Char.ofNat (8 * octVal e + octVal f)], r4)
            else some ([Char.ofNat (octVal e)], r3)
          | [] => some ([Char.ofNat (octVal e)], [])
        else some ([Char.ofNat 0], r2)
      | [] => some ([Char.ofNat 0], [])
    else if pyIsDigit d then
      match r2 with
      | e :: r3 =>
        if pyIsDigit e then
          match r3 with
          | f :: r4 =>
            if octDig d && octDig e && octDig f then
              if 64 * octVal d + 8 * octVal e + octVal f ≤ 255 then
                some ([Char.ofNat (64 * octVal d + 8 * octVal e + octVal f)],
                  r4)
              else none
            else none
          | [] => none
        else none
      | [] => none
    else
      match escChar d with
      | some e => some ([e], r2)
      | none =>
        if asciiLetter d then none
        else some (['\\', d], r2)

/-- Fuel-driven worker for `expandTemplate`. -/
def expandTemplateF : Nat → List Char → Option (List Char)
  | _, [] => some []
  | 0, _ :: _ => none
  | n + 1, c :: rest =>
    if c = '\\' then
      match escStep rest with
      | none => none
      | some (out, r2) => (expandTemplateF n r2).map (fun t => out ++ t)
    else (expandTemplateF n rest).map (fun t => c :: t)

/-- `sre_parse.parse_template` against a pattern with no capture groups:
the replacement template with its escapes expanded, or `none` for
`re.error`. -/
def expandTemplate (t : List Char) : Option (List Char) :=
  expandTemplateF t.length t

theorem expandTemplateF_cons_ne (n : Nat) (c : Char) (rest : List Char)
    (hc : ¬ c = '\\') :
    expandTemplateF (n + 1) (c :: rest) =
      (expandTemplateF n rest).map (fun t => c :: t) := by
  show (if c = '\\' then
      match escStep rest with
      | none => none
      | some (out, r2) => (expandTemplateF n r2).map (fun t => out ++ t)
    else (expandTemplateF n rest).map (fun t => c :: t)) = _
  rw [if_neg hc]

theorem expandTemplateF_id : ∀ (n : Nat) (t : List Char), t.length ≤ n →
    (∀ c ∈ t, c ≠ '\\') → expandTemplateF n t = some t
  | n, [], _, _ => by cases n <;> rfl
  | 0, c :: rest, h, _ => absurd h (by simp)
  | n + 1, c :: rest, h, hb => by
    rw [expandTemplateF_cons_ne n c rest (hb c (by simp))]
    rw [expandTemplateF_id n rest (by simp at h; omega)
      (fun x hx => hb x (List.mem_cons_of_mem c hx))]
    rfl

/-- On a backslash-free template the expansion is the identity. -/
theorem expandTemplate_id {t : List Char} (h : ∀ c ∈ t, c ≠ '\\') :
    expandTemplate t = some t :=
  expandTemplateF_id t.length t le_rfl h

/-- Fuel-driven worker for `subAR`. -/
def subARF : Nat → List Char → List Char → List Char → List Char
  | _, _, _, [] => []
  | 0, _, _, s => s
  | fuel + 1, tag, rep, c :: t =>
    match mA tag (c :: t) with
    | some (_, rest) => rep ++ subARF fuel tag rep rest
    | none => c :: subARF fuel tag rep t

/-- `re.sub` with pattern `<string name="TAG">[^<]*</string>` and an
arbitrary already-expanded replacement text: each match is replaced by
`rep` as a whole.  `subA` is the special case whose replacement re-wraps a
value in the pattern literals. -/
def subAR (tag rep s : List Char) : List Char := subARF s.length tag rep s

theorem subARF_eq : ∀ (n : Nat) (tag v s : List Char),
    subARF n tag (litA tag ++ v ++ litB) s = subAF n tag v s
  | n, _, _, [] => by cases n <;> rfl
  | 0, _, _, _ :: _ => rfl
  | n + 1, tag, v, c :: t => by
    simp only [subARF, subAF]
    cases hm : mA tag (c :: t) with
    | some p =>
      obtain ⟨x, rest⟩ := p
      show litA tag ++ v ++ litB ++ subARF n tag (litA tag ++ v ++ litB) rest =
        litA tag ++ v ++ litB ++ subAF n tag v rest
      rw [subARF_eq n tag v rest]
    | none =>
      show c :: subARF n tag (litA tag ++ v ++ litB) t = c :: subAF n tag v t
      rw [subARF_eq n tag v t]

theorem subAR_eq_subA (tag v s : List Char) :
    subAR tag (litA tag ++ v ++ litB) s = subA tag v s :=
  subARF_eq s.length tag v s

/-- Lines 102–105 of `update_strings_xml` with the replacement-template
semantics of `re.sub`: each f-string template is escape-processed before
substituting; a bad escape raises `re.error`, which the enclosing `try`
catches, so no content is produced and the file is left unwritten
(`none`). -/
def stringsXmlSub (appName host lu content : List Char) :
    Option (List Char) :=
  (expandTemplate (litA tagApp ++ appName ++ litB)).bind (fun r1 =>
    (expandTemplate (litA tagLaunch ++ resolveLaunchUrl host lu ++ litB)).map
      (fun r2 => subAR tagLaunch r2 (subAR tagApp r1 content)))

/-- For backslash-free configured values the templates expand to themselves
and the substitution is exactly `updateStringsContent`. -/
theorem stringsXmlSub_eq {appName host lu : List Char}
    (hab : ∀ c ∈ appName, c ≠ '\\')
    (hlb : ∀ c ∈ resolveLaunchUrl host lu, c ≠ '\\') (content : List Char) :
    stringsXmlSub appName host lu content =
      some (updateStringsContent appName host lu content) := by
  have hA : ∀ c ∈ litA tagApp, c ≠ '\\' := by decide
  have hL : ∀ c ∈ litA tagLaunch, c ≠ '\\' := by decide
  have hB : ∀ c ∈ litB, c ≠ '\\' := by decide
  have h1 : expandTemplate (litA tagApp ++ appName ++ litB) =
      some (litA tagApp ++ appName ++ litB) := by
    refine expandTemplate_id ?_
    intro c hc
    rcases List.mem_append.mp hc with hc | hc
    · rcases List.mem_append.mp hc with hc | hc
      · exact hA c hc
      · exact hab c hc
    · exact hB c hc
  have h2 : expandTemplate
        (litA tagLaunch ++ resolveLaunchUrl host lu ++ litB) =
      some (litA tagLaunch ++ resolveLaunchUrl host lu ++ litB) := by
    refine expandTemplate_id ?_
    intro c hc
    rcases List.mem_append.mp hc with hc | hc
    · rcases List.mem_append.mp hc with hc | hc
      · exact hL c hc
      · exact hlb c hc
    · exact hB c hc
  unfold stringsXmlSub
  rw [h1, h2]
  simp only [Option.some_bind, Option.map_some']
  rw [subAR_eq_subA, subAR_eq_subA]
  rfl

set_option maxRecDepth 10000 in
/-- Claim C4, counterexample: one strings.xml rewrite is not idempotent
when the configured app name itself contains `</string><string
name="app_name">` — the second run rewrites text the first run inserted.
The value is backslash-free, so its replacement template expands to itself
and `stringsXmlSub` is the program's own substitution. -/
theorem c4_counterexample_strings :
    stringsXmlSub (cl "X</string><string name=\"app_name\">Y")
        (cl "example.com") (cl "https://e")
        (cl "<string name=\"app_name\">Old</string>") =
      some (updateStringsContent (cl "X</string><string name=\"app_name\">Y")
        (cl "example.com") (cl "https://e")
        (cl "<string name=\"app_name\">Old</string>")) ∧
    stringsXmlSub (cl "X</string><string name=\"app_name\">Y")
        (cl "example.com") (cl "https://e")
        (updateStringsContent (cl "X</string><string name=\"app_name\">Y")
          (cl "example.com") (cl "https://e")
          (cl "<string name=\"app_name\">Old</string>")) ≠
      some (updateStringsContent (cl "X</string><string name=\"app_name\">Y")
        (cl "example.com") (cl "https://e")
        (cl "<string name=\"app_name\">Old</string>")) := by decide


theorem subA_of_not_occurs {tag rep : List Char} :
    ∀ {s : List Char}, occursB (litA tag) s = false → subA tag rep s = s := by
  intro s
  induction s with
  | nil => intro _; rfl
  | cons c t ih =>
    intro ho
    simp only [occursB, Bool.or_eq_false_iff] at ho
    rw [subA_cons_none (mA_none_of_not_pref
      (not_prefix_of_isPrefixOf_false ho.1)), ih ho.2]

theorem replaceAll_head {pat r rep : List Char} (hp : pat ≠ []) :
    replaceAll (pat ++ r) pat rep = rep ++ replaceAll r pat rep := by
  cases pat with
  | nil => exact absurd rfl hp
  | cons p pt =>
    rw [List.cons_append, replaceAll_cons hp,
      if_pos (by rw [List.isPrefixOf_iff_prefix]; exact ⟨r, by simp⟩)]
    congr 1
    congr 1
    exact List.drop_left (p :: pt) r

theorem replaceAll_no_occ_pref {pat rep : List Char} (hp : pat ≠ []) :
    ∀ {u x : List Char},
      (∀ p < u.length, pat.isPrefixOf ((u ++ x).drop p) = false) →
      replaceAll (u ++ x) pat rep = u ++ replaceAll x pat rep := by
  intro u
  induction u with
  | nil => intro x _; rfl
  | cons a u' ih =>
    intro x hocc
    have h0 : pat.isPrefixOf (a :: (u' ++ x)) = false := by
      have := hocc 0 (by simp)
      simpa using this
    rw [List.cons_append, replaceAll_cons hp,
      if_neg (by rw [h0]; exact Bool.false_ne_true)]
    rw [ih (fun p hpp => by
      have := hocc (p + 1) (by simp; omega)
      simpa using this)]
    rfl

/-- The line inserted by `create_launcher_background_color` together with the
closing tag it replaces. -/
def bgInsert : List Char :=
  cl "    <color name=\"ic_launcher_background\">#3B82F6</color>\n</resources>"

/-- The fresh `colors.xml` written when the file does not exist. -/
def colorsDefault : List Char :=
  cl "<?xml version=\"1.0\" encoding=\"utf-8\"?>\n<resources>\n    <color name=\"ic_launcher_background\">#3B82F6</color>\n</resources>"

/-- `create_launcher_background_color` (lines 282–304): on an existing
`colors.xml` adds the `ic_launcher_background` entry before the closing
`</resources>` tag only when no `ic_launcher_background` text is present;
creates a default file otherwise. -/
def create_launcher_background_color (colors : Option (List Char)) : List Char :=
  match colors with
  | none => colorsDefault
  | some content =>
    if occursB (cl "ic_launcher_background") content = true then content
    else replaceAll content (cl "</resources>") bgInsert


/-- Claim C7, counterexample: a strings.xml with no `app_name` entry is
written back unchanged — no entry is inserted for the app-name field. -/
theorem c7_counterexample :
    stringsXmlSub (cl "MyApp") (cl "example.com") (cl "/")
        (cl "<resources>\n</resources>") =
      some (cl "<resources>\n</resources>") ∧
      occursB (litA tagApp) (cl "<resources>\n</resources>") = false := by
  decide

/-- Claim C8, counterexample: host `example.com/sub` is not cleaned to the
bare host — only schemes are stripped, so the path `/sub` survives into the
resolved launch URL. -/
theorem c8_counterexample :
    resolveLaunchUrl (cl "example.com/sub") (cl "app") =
        cl "https://example.com/sub/app" ∧
      cl "https://" ++ cleanHost (cl "example.com/sub") ++ ensureSlash (cl "app") =
        cl "https://example.com/app" ∧
      resolveLaunchUrl (cl "example.com/sub") (cl "app") ≠
        cl "https://" ++ cleanHost (cl "example.com/sub") ++
          ensureSlash (cl "app") := by decide

/-- Python `\s` on the ASCII range. -/
def pySpace (c : Char) : Bool :=
  c = ' ' || c = Char.ofNat 9 || c = Char.ofNat 10 || c = Char.ofNat 13 ||
    c = Char.ofNat 11 || c = Char.ofNat 12

/-- A quote character, the pattern's `["\']`. -/
def isQuote (c : Char) : Bool := c = dq || c = sq

/-- A character the lazy `.*?` may consume before the closing quote: not a
newline (`.` does not match newlines) and not a quote (laziness stops at the
first quote of either kind). -/
def valB (c : Char) : Bool := !isQuote c && !(c = Char.ofNat 10)

/-- One quoted assignment as matched by `KEY\s+["\'].*?["\']`. -/
structure BAsn where
  w : List Char
  q : Char
  v : List Char
  q2 : Char

/-- The text of an assignment. -/
def asnStr (key : List Char) (a : BAsn) : List Char :=
  key ++ a.w ++ a.q :: (a.v ++ [a.q2])

/-- Well-formedness of an assignment occurrence: nonempty whitespace run, two
quotes, and a value free of quotes and newlines. -/
def asnOkB (a : BAsn) : Prop :=
  a.w ≠ [] ∧ (∀ c ∈ a.w, pySpace c = true) ∧ isQuote a.q = true ∧
    (∀ c ∈ a.v, valB c = true) ∧ isQuote a.q2 = true

/-- Head matcher for the `re.sub` pattern `KEY\s+["\'].*?["\']` used on
`build.gradle` (lines 64–65): returns the rest after the match.  Greedy `\s+`
followed by a quote and lazy `.*?` up to the first quote are deterministic. -/
def mBq2 : List Char → Option (List Char)
  | [] => none
  | q2 :: r3 => if isQuote q2 then some r3 else none

/-- Stage of `mB` after the whitespace run: opening quote, lazy value, closing
quote. -/
def mBq : List Char → Option (List Char)
  | [] => none
  | q :: r2 => if isQuote q then mBq2 (r2.drop (r2.takeWhile valB).length) else none

def mB (key s : List Char) : Option (List Char) :=
  if key.isPrefixOf s then
    let r := s.drop key.length
    let w := r.takeWhile pySpace
    if w.length = 0 then none else mBq (r.drop w.length)
  else none

/-- The replacement `KEY "PKG"` written by `update_twa_manifest_in_gradle`. -/
def repB (key pkg : List Char) : List Char := key ++ ' ' :: dq :: (pkg ++ [dq])

/-- Fuel-driven worker for `subB`. -/
def subBF : Nat → List Char → List Char → List Char → List Char
  | _, _, _, [] => []
  | 0, _, _, s => s
  | fuel + 1, key, pkg, c :: t =>
    match mB key (c :: t) with
    | some rest => repB key pkg ++ subBF fuel key pkg rest
    | none => c :: subBF fuel key pkg t

/-- `re.sub(KEY\s+["\'].*?["\'], KEY "PKG", s)` for an already
escape-expanded package; `subBR` below takes an arbitrary expanded
template, and `gradleSub` performs the expansion. -/
def subB (key pkg s : List Char) : List Char := subBF s.length key pkg s

theorem quote_not_space {c : Char} (h : isQuote c = true) : pySpace c = false := by
  simp only [isQuote, Bool.or_eq_true, decide_eq_true_eq] at h
  rcases h with h | h <;> subst h <;> decide

theorem quote_not_val {c : Char} (h : isQuote c = true) : valB c = false := by
  simp [valB, h]

theorem mB_inv {key s rest : List Char} (h : mB key s = some rest) :
    ∃ a : BAsn, asnOkB a ∧ s = asnStr key a ++ rest := by
  unfold mB at h
  by_cases hpre : key.isPrefixOf s
  · rw [if_pos hpre] at h
    simp only at h
    set r := s.drop key.length with hr
    set w := r.takeWhile pySpace with hw
    by_cases hw0 : w.length = 0
    · rw [if_pos hw0] at h
      exact absurd h (by simp)
    · rw [if_neg hw0] at h
      cases hr1 : r.drop w.length with
      | nil => rw [hr1] at h; exact absurd h (by simp [mBq])
      | cons q r2 =>
        rw [hr1] at h
        simp only [mBq] at h
        by_cases hq : isQuote q
        · rw [if_pos hq] at h
          set v := r2.takeWhile valB with hv
          cases hr2 : r2.drop v.length with
          | nil => rw [hr2] at h; exact absurd h (by simp [mBq2])
          | cons q2 r3 =>
            rw [hr2] at h
            simp only [mBq2] at h
            by_cases hq2 : isQuote q2
            · rw [if_pos hq2] at h
              injection h with h
              subst h
              refine ⟨⟨w, q, v, q2⟩, ⟨?_, ?_, hq, ?_, hq2⟩, ?_⟩
              · intro hwnil
                apply hw0
                have hwe : w = [] := hwnil
                rw [hwe]
                rfl
              · intro c hc
                rw [hw] at hc
                exact List.mem_takeWhile_imp hc
              · intro c hc
                rw [hv] at hc
                exact List.mem_takeWhile_imp hc
              · rw [List.isPrefixOf_iff_prefix] at hpre
                obtain ⟨rr, hrr⟩ := hpre
                have hrdrop : r = rr := by
                  rw [hr, ← hrr]
                  exact List.drop_left _ _
                have hrsplit : r = w ++ (q :: r2) := by
                  rw [← hr1, hw]
                  rw [drop_takeWhile_length]
                  exact (List.takeWhile_append_dropWhile pySpace r).symm
                have hr2split : r2 = v ++ (q2 :: r3) := by
                  rw [← hr2, hv]
                  rw [drop_takeWhile_length]
                  exact (List.takeWhile_append_dropWhile valB r2).symm
                rw [← hrr, ← hrdrop, hrsplit, hr2split]
                unfold asnStr
                simp
            · rw [if_neg hq2] at h
              exact absurd h (by simp)
        · rw [if_neg hq] at h
          exact absurd h (by simp)
  · rw [if_neg hpre] at h
    exact absurd h (by simp)

theorem mB_of_shape {key rest : List Char} {a : BAsn} (ha : asnOkB a) :
    mB key (asnStr key a ++ rest) = some rest := by
  obtain ⟨hw, hws, hq, hvs, hq2⟩ := ha
  unfold mB
  have hpre : key.isPrefixOf (asnStr key a ++ rest) = true := by
    rw [List.isPrefixOf_iff_prefix]
    exact ⟨a.w ++ a.q :: (a.v ++ [a.q2]) ++ rest, by unfold asnStr; simp⟩
  rw [if_pos hpre]
  simp only
  have h1 : (asnStr key a ++ rest).drop key.length =
      a.w ++ (a.q :: (a.v ++ [a.q2] ++ rest)) := by
    have he : asnStr key a ++ rest =
        key ++ (a.w ++ (a.q :: (a.v ++ [a.q2] ++ rest))) := by
      unfold asnStr
      simp
    rw [he]
    exact List.drop_left _ _
  rw [h1]
  have h2 : (a.w ++ (a.q :: (a.v ++ [a.q2] ++ rest))).takeWhile pySpace = a.w :=
    takeWhile_append_head hws (quote_not_space hq)
  rw [h2]
  rw [if_neg (by
    intro hz
    exact hw (List.length_eq_zero.mp hz))]
  have h3 : (a.w ++ (a.q :: (a.v ++ [a.q2] ++ rest))).drop a.w.length =
      a.q :: (a.v ++ [a.q2] ++ rest) := List.drop_left _ _
  rw [h3]
  simp only [mBq]
  rw [if_pos hq]
  have h4 : (a.v ++ [a.q2] ++ rest).takeWhile valB = a.v := by
    have he : a.v ++ [a.q2] ++ rest = a.v ++ (a.q2 :: rest) := by simp
    rw [he]
    exact takeWhile_append_head hvs (quote_not_val hq2)
  rw [h4]
  have h5 : (a.v ++ [a.q2] ++ rest).drop a.v.length = a.q2 :: rest := by
    have he : a.v ++ [a.q2] ++ rest = a.v ++ (a.q2 :: rest) := by simp
    rw [he]
    exact List.drop_left _ _
  rw [h5]
  simp only [mBq2]
  rw [if_pos hq2]

theorem mB_rest_length {key s rest : List Char} (h : mB key s = some rest) :
    rest.length + 2 ≤ s.length := by
  obtain ⟨a, ⟨hw, _⟩, hs⟩ := mB_inv h
  rw [hs]
  unfold asnStr
  simp
  have : 1 ≤ a.w.length := by
    cases hwc : a.w with
    | nil => exact absurd hwc hw
    | cons x xs => simp
  omega


theorem subBF_fuel (key pkg : List Char) :
    ∀ (f₁ f₂ : Nat) (s : List Char), s.length ≤ f₁ → s.length ≤ f₂ →
      subBF f₁ key pkg s = subBF f₂ key pkg s := by
  intro f₁
  induction f₁ with
  | zero =>
    intro f₂ s h₁ _
    cases s with
    | nil => cases f₂ <;> rfl
    | cons c t => simp at h₁
  | succ f ih =>
    intro f₂ s h₁ h₂
    cases s with
    | nil => cases f₂ <;> rfl
    | cons c t =>
      cases f₂ with
      | zero => simp at h₂
      | succ f' =>
        simp only [subBF]
        cases hm : mB key (c :: t) with
        | none =>
          rw [ih f' t (by simp at h₁; omega) (by simp at h₂; omega)]
        | some rest =>
          have hlen := mB_rest_length hm
          simp only [List.length_cons] at h₁ h₂ hlen
          show repB key pkg ++ subBF f key pkg rest =
            repB key pkg ++ subBF f' key pkg rest
          rw [ih f' rest (by omega) (by omega)]

theorem subB_nil (key pkg : List Char) : subB key pkg [] = [] := rfl

theorem subB_cons_match {key pkg : List Char} {ch : Char} {t rest : List Char}
    (hm : mB key (ch :: t) = some rest) :
    subB key pkg (ch :: t) = repB key pkg ++ subB key pkg rest := by
  have hlen := mB_rest_length hm
  simp only [List.length_cons] at hlen
  show subBF (t.length + 1) key pkg (ch :: t) = _
  simp only [subBF]
  rw [hm]
  show repB key pkg ++ subBF t.length key pkg rest =
    repB key pkg ++ subB key pkg rest
  rw [subBF_fuel key pkg t.length rest.length rest (by omega) (Nat.le_refl _)]
  rfl

theorem subB_cons_none {key pkg : List Char} {ch : Char} {t : List Char}
    (hm : mB key (ch :: t) = none) :
    subB key pkg (ch :: t) = ch :: subB key pkg t := by
  show subBF (t.length + 1) key pkg (ch :: t) = _
  simp only [subBF]
  rw [hm]
  rfl

theorem asnStr_ne_nil {key : List Char} {a : BAsn} :
    asnStr key a ++ ([] : List Char) ≠ [] := by
  unfold asnStr
  intro he
  have := congrArg List.length he
  simp at this

theorem subB_match {key pkg rest : List Char} {a : BAsn} (ha : asnOkB a) :
    subB key pkg (asnStr key a ++ rest) = repB key pkg ++ subB key pkg rest := by
  have hm := @mB_of_shape key rest a ha
  cases hs : asnStr key a ++ rest with
  | nil =>
    exfalso
    have := congrArg List.length hs
    unfold asnStr at this
    simp at this
  | cons ch t =>
    rw [hs] at hm
    exact subB_cons_match hm

theorem mB_none_of_not_pref {key s : List Char} (h : ¬ key <+: s) :
    mB key s = none := by
  unfold mB
  rw [if_neg (by rw [List.isPrefixOf_iff_prefix]; exact h)]

theorem subB_of_not_occurs {key pkg : List Char} :
    ∀ {s : List Char}, occursB key s = false → subB key pkg s = s := by
  intro s
  induction s with
  | nil => intro _; rfl
  | cons c t ih =>
    intro ho
    simp only [occursB, Bool.or_eq_false_iff] at ho
    rw [subB_cons_none (mB_none_of_not_pref
      (not_prefix_of_isPrefixOf_false ho.1)), ih ho.2]

theorem subB_no_occ_pref {key pkg : List Char} :
    ∀ {u x : List Char},
      (∀ p < u.length, key.isPrefixOf ((u ++ x).drop p) = false) →
      subB key pkg (u ++ x) = u ++ subB key pkg x := by
  intro u
  induction u with
  | nil => intro x _; rfl
  | cons a u' ih =>
    intro x hocc
    have h0 : key.isPrefixOf (a :: (u' ++ x)) = false := by
      have := hocc 0 (by simp)
      simpa using this
    rw [List.cons_append, subB_cons_none (mB_none_of_not_pref
      (not_prefix_of_isPrefixOf_false h0))]
    rw [ih (fun p hpp => by
      have := hocc (p + 1) (by simp; omega)
      simpa using this)]
    rfl


theorem prefix_split {key s z : List Char} (h : key <+: s ++ z)
    (hl : s.length ≤ key.length) : s <+: key ∧ key.drop s.length <+: z := by
  obtain ⟨r, hr⟩ := h
  have hsz : key.take s.length ++ (key.drop s.length ++ r) = s ++ z := by
    rw [← List.append_assoc, List.take_append_drop]
    exact hr
  have hlen : (key.take s.length).length = s.length := by
    simp [List.length_take]
    omega
  obtain ⟨h1, h2⟩ := List.append_inj hsz hlen
  exact ⟨List.prefix_iff_eq_take.mpr h1.symm, ⟨r, h2⟩⟩

theorem prefix_short {key s z : List Char} (h : key <+: s ++ z)
    (hl : key.length ≤ s.length) : key <+: s :=
  List.prefix_of_prefix_length_le h (List.prefix_append s z) hl

theorem occurs_of_prefix_drop {pat g : List Char} :
    ∀ {p : Nat}, pat <+: g.drop p → occursB pat g = true := by
  induction g with
  | nil =>
    intro p h
    rw [List.drop_nil] at h
    rw [List.prefix_nil] at h
    subst h
    rfl
  | cons c t ih =>
    intro p h
    cases p with
    | zero =>
      simp only [List.drop_zero] at h
      simp only [occursB, Bool.or_eq_true]
      exact Or.inl (List.isPrefixOf_iff_prefix.mpr h)
    | succ p' =>
      simp only [occursB, Bool.or_eq_true]
      exact Or.inr (ih h)

theorem no_span_append {key A B X : List Char}
    (hA : ∀ p < A.length, ¬ key <+: (A.drop p ++ (B ++ X)))
    (hB : ∀ p < B.length, ¬ key <+: (B.drop p ++ X)) :
    ∀ p < (A ++ B).length, ¬ key <+: ((A ++ B).drop p ++ X) := by
  intro p hp h
  rw [List.drop_append_eq_append_drop] at h
  by_cases hpl : p < A.length
  · rw [Nat.sub_eq_zero_of_le (Nat.le_of_lt hpl), List.drop_zero] at h
    rw [List.append_assoc] at h
    exact hA p hpl h
  · push_neg at hpl
    rw [List.drop_of_length_le hpl, List.nil_append] at h
    apply hB (p - A.length) (by simp at hp; omega) h

theorem no_occ_prefix_of_no_span {key u x : List Char}
    (h : ∀ p < u.length, ¬ key <+: (u.drop p ++ x)) :
    ∀ p < u.length, key.isPrefixOf ((u ++ x).drop p) = false := by
  intro p hp
  rw [List.drop_append_of_le_length (Nat.le_of_lt hp)]
  rw [Bool.eq_false_iff]
  intro hc
  exact h p hp (List.isPrefixOf_iff_prefix.mp hc)

/-- Decidable facts about a pair of keys needed to scan for one key across an
occurrence of the other. -/
abbrev keyPairOk (key key' : List Char) : Prop :=
  key.isPrefixOf key' = false ∧ key'.isPrefixOf key = false ∧
    ∀ p, p < key'.length → 0 < p →
      key.isPrefixOf (key'.drop p) = false ∧
        (key'.drop p).isPrefixOf key = false

/-- Decidable facts about proper suffixes of `key` against the head `key''` of
whatever follows a gap. -/
abbrev keySpanOk (key key'' : List Char) : Prop :=
  ∀ i, i < key.length → 0 < i →
    (key.drop i).isPrefixOf key'' = false ∧
      key''.isPrefixOf (key.drop i) = false

theorem no_span_key' {key key' Z : List Char} (hpair : keyPairOk key key') :
    ∀ p < key'.length, ¬ key <+: (key'.drop p ++ Z) := by
  obtain ⟨h1, h2, h3⟩ := hpair
  intro p hp h
  by_cases hl : key.length ≤ (key'.drop p).length
  · have hpre := prefix_short h hl
    cases Nat.eq_zero_or_pos p with
    | inl hz =>
      subst hz
      rw [List.drop_zero] at hpre
      exact absurd (List.isPrefixOf_iff_prefix.mpr hpre) (by rw [h1]; simp)
    | inr hpos =>
      exact absurd (List.isPrefixOf_iff_prefix.mpr hpre)
        (by rw [(h3 p hp hpos).1]; simp)
  · push_neg at hl
    obtain ⟨hpre, _⟩ := prefix_split h (Nat.le_of_lt hl)
    cases Nat.eq_zero_or_pos p with
    | inl hz =>
      subst hz
      rw [List.drop_zero] at hpre
      exact absurd (List.isPrefixOf_iff_prefix.mpr hpre) (by rw [h2]; simp)
    | inr hpos =>
      exact absurd (List.isPrefixOf_iff_prefix.mpr hpre)
        (by rw [(h3 p hp hpos).2]; simp)

theorem no_span_class {key w Z : List Char} {bad : Char → Bool}
    (hw : ∀ c ∈ w, bad c = true) (hkey : ∀ c ∈ key, bad c = false)
    (hkne : key ≠ []) :
    ∀ p < w.length, ¬ key <+: (w.drop p ++ Z) := by
  intro p hp h
  cases hk : key with
  | nil => exact hkne hk
  | cons k0 key' =>
    cases hs : w.drop p with
    | nil =>
      have hlen := congrArg List.length hs
      simp at hlen
      omega
    | cons c s' =>
      rw [hk, hs] at h
      obtain ⟨z, hz⟩ := h
      simp only [List.cons_append] at hz
      injection hz with he _
      have hcw : c ∈ w := List.drop_subset p w (by rw [hs]; simp)
      have h1 := hw c hcw
      have h2 := hkey k0 (by rw [hk]; simp)
      rw [he, h1] at h2
      exact absurd h2 (by simp)


theorem no_span_val {key v : List Char} {q2 : Char} {Z : List Char}
    (hocc : occursB key v = false)
    (hkq : ∀ c ∈ key, isQuote c = false)
    (hq2 : isQuote q2 = true) :
    ∀ p < v.length, ¬ key <+: (v.drop p ++ (q2 :: Z)) := by
  intro p hp h
  by_cases hl : key.length ≤ (v.drop p).length
  · exact absurd (occurs_of_prefix_drop (prefix_short h hl))
      (by rw [hocc]; simp)
  · push_neg at hl
    obtain ⟨_, ht⟩ := prefix_split h (Nat.le_of_lt hl)
    cases hc : key.drop (v.drop p).length with
    | nil =>
      have hlen := congrArg List.length hc
      simp only [List.length_drop, List.length_nil] at hlen
      have hl2 : (v.drop p).length < key.length := hl
      simp only [List.length_drop] at hl2
      omega
    | cons k1 t' =>
      rw [hc] at ht
      obtain ⟨z, hz⟩ := ht
      simp only [List.cons_append] at hz
      injection hz with he _
      have hk1 : k1 ∈ key := by
        apply List.drop_subset (v.drop p).length key
        rw [hc]
        simp
      have hf := hkq k1 hk1
      rw [he, hq2] at hf
      exact absurd hf (by simp)

theorem no_span_gap_mid {key key'' g Y : List Char}
    (hocc : occursB key g = false) (hspan : keySpanOk key key'') :
    ∀ p < g.length, ¬ key <+: (g.drop p ++ (key'' ++ Y)) := by
  intro p hp h
  by_cases hl : key.length ≤ (g.drop p).length
  · exact absurd (occurs_of_prefix_drop (prefix_short h hl))
      (by rw [hocc]; simp)
  · push_neg at hl
    obtain ⟨_, ht⟩ := prefix_split h (Nat.le_of_lt hl)
    have hi0 : 0 < (g.drop p).length := by
      simp
      omega
    have hik : (g.drop p).length < key.length := hl
    by_cases h2 : (key.drop (g.drop p).length).length ≤ key''.length
    · exact absurd (List.isPrefixOf_iff_prefix.mpr (prefix_short ht h2))
        (by rw [(hspan _ hik hi0).1]; simp)
    · push_neg at h2
      obtain ⟨hpre, _⟩ := prefix_split ht (Nat.le_of_lt h2)
      exact absurd (List.isPrefixOf_iff_prefix.mpr hpre)
        (by rw [(hspan _ hik hi0).2]; simp)

theorem no_span_asn {key key' X : List Char} {a : BAsn}
    (ha : asnOkB a) (hpair : keyPairOk key key') (hkne : key ≠ [])
    (hkq : ∀ c ∈ key, isQuote c = false)
    (hksp : ∀ c ∈ key, pySpace c = false)
    (hocc : occursB key a.v = false) :
    ∀ p < (asnStr key' a).length, ¬ key <+: ((asnStr key' a).drop p ++ X) := by
  obtain ⟨hw, hws, hq, hvs, hq2⟩ := ha
  have hE : asnStr key' a = key' ++ (a.w ++ ([a.q] ++ (a.v ++ [a.q2]))) := by
    unfold asnStr
    simp
  rw [hE]
  apply no_span_append
  · exact no_span_key' hpair
  apply no_span_append
  · exact no_span_class hws hksp hkne
  apply no_span_append
  · exact no_span_class (w := [a.q])
      (by intro c hc; simp at hc; rw [hc]; exact hq) hkq hkne
  apply no_span_append
  · exact no_span_val hocc hkq hq2
  · exact no_span_class (w := [a.q2])
      (by intro c hc; simp at hc; rw [hc]; exact hq2) hkq hkne


/-- The `namespace` key (line 64 of `customize-project.py`). -/
def keyNs : List Char := cl "namespace"

/-- The `applicationId` key (line 65). -/
def keyId : List Char := cl "applicationId"

/-- Select one of the two gradle keys. -/
def keyOf (b : Bool) : List Char := if b then keyNs else keyId

/-- The canonical assignment `KEY "PKG"` left behind by the substitution. -/
def canonAsn (pkg : List Char) : BAsn := ⟨[' '], dq, pkg, dq⟩

theorem repB_eq_asnStr (key pkg : List Char) :
    repB key pkg = asnStr key (canonAsn pkg) := by
  unfold repB asnStr canonAsn
  simp

/-- A gap of a gradle tiling: text free of both keys. -/
def gapOk (g : List Char) : Prop :=
  occursB keyNs g = false ∧ occursB keyId g = false

/-- Build the gradle content from tiles (gap, key flag, assignment) and a
final gap. -/
def tileStr : List (List Char × Bool × BAsn) → List Char → List Char
  | [], tail => tail
  | (g, b, a) :: ts, tail => g ++ (asnStr (keyOf b) a ++ tileStr ts tail)

/-- Well-formedness of a gradle tiling: gaps are key-free, assignments are
well-formed, and assignment values contain neither key. -/
def tilesOk : List (List Char × Bool × BAsn) → List Char → Prop
  | [], tail => gapOk tail
  | (g, _, a) :: ts, tail =>
    gapOk g ∧ asnOkB a ∧ occursB keyNs a.v = false ∧
      occursB keyId a.v = false ∧ tilesOk ts tail

/-- Replace the assignments of the selected key by the canonical one. -/
def subTiles (b : Bool) (pkg : List Char) :
    List (List Char × Bool × BAsn) → List (List Char × Bool × BAsn)
  | [] => []
  | (g, b', a) :: ts =>
    (g, b', if b' = b then canonAsn pkg else a) :: subTiles b pkg ts

theorem keyOf_ne (b : Bool) : keyOf b ≠ [] := by cases b <;> decide

theorem keyOf_noquote (b : Bool) : ∀ c ∈ keyOf b, isQuote c = false := by
  cases b <;> decide

theorem keyOf_nospace (b : Bool) : ∀ c ∈ keyOf b, pySpace c = false := by
  cases b <;> decide

theorem keyOf_pair {b b' : Bool} (h : b ≠ b') :
    keyPairOk (keyOf b) (keyOf b') := by
  cases b <;> cases b' <;> first | exact absurd rfl h | decide

theorem keyOf_span (b b' : Bool) : keySpanOk (keyOf b) (keyOf b') := by
  cases b <;> cases b' <;> decide

theorem gap_occ {g : List Char} (b : Bool) (hg : gapOk g) :
    occursB (keyOf b) g = false := by
  cases b
  · exact hg.2
  · exact hg.1

theorem subB_tiles {b : Bool} {pkg : List Char} :
    ∀ (tiles : List (List Char × Bool × BAsn)) (tail : List Char),
      tilesOk tiles tail →
      subB (keyOf b) pkg (tileStr tiles tail) =
        tileStr (subTiles b pkg tiles) tail := by
  intro tiles
  induction tiles with
  | nil =>
    intro tail hok
    exact subB_of_not_occurs (gap_occ b hok)
  | cons tile ts ih =>
    obtain ⟨g, b', a⟩ := tile
    intro tail hok
    obtain ⟨hg, ha, hvNs, hvId, hts⟩ := hok
    have hshape : asnStr (keyOf b') a ++ tileStr ts tail =
        keyOf b' ++ (a.w ++ a.q :: (a.v ++ [a.q2]) ++ tileStr ts tail) := by
      unfold asnStr
      simp
    have hgap : subB (keyOf b) pkg (g ++ (asnStr (keyOf b') a ++ tileStr ts tail)) =
        g ++ subB (keyOf b) pkg (asnStr (keyOf b') a ++ tileStr ts tail) := by
      apply subB_no_occ_pref
      apply no_occ_prefix_of_no_span
      rw [hshape]
      exact no_span_gap_mid (gap_occ b hg) (keyOf_span b b')
    rw [show tileStr ((g, b', a) :: ts) tail =
      g ++ (asnStr (keyOf b') a ++ tileStr ts tail) from rfl, hgap]
    by_cases hbb : b' = b
    · subst hbb
      rw [subB_match ha, ih tail hts, repB_eq_asnStr]
      have hsub : subTiles b' pkg ((g, b', a) :: ts) =
          (g, b', canonAsn pkg) :: subTiles b' pkg ts := by
        simp [subTiles]
      rw [hsub]
      rfl
    · have hocc : occursB (keyOf b) a.v = false := by
        cases b
        · exact hvId
        · exact hvNs
      have hskip : subB (keyOf b) pkg (asnStr (keyOf b') a ++ tileStr ts tail) =
          asnStr (keyOf b') a ++ subB (keyOf b) pkg (tileStr ts tail) := by
        apply subB_no_occ_pref
        apply no_occ_prefix_of_no_span
        exact no_span_asn ha (keyOf_pair (fun he => hbb he.symm)) (keyOf_ne b)
          (keyOf_noquote b) (keyOf_nospace b) hocc
      rw [hskip, ih tail hts]
      have hsub : subTiles b pkg ((g, b', a) :: ts) =
          (g, b', a) :: subTiles b pkg ts := by
        simp only [subTiles]
        rw [if_neg hbb]
      rw [hsub]
      rfl


theorem tilesOk_subTiles {b : Bool} {pkg : List Char}
    (hpkg : ∀ c ∈ pkg, valB c = true)
    (hNs : occursB keyNs pkg = false) (hId : occursB keyId pkg = false) :
    ∀ {tiles : List (List Char × Bool × BAsn)} {tail : List Char},
      tilesOk tiles tail → tilesOk (subTiles b pkg tiles) tail := by
  intro tiles
  induction tiles with
  | nil => intro tail h; exact h
  | cons tile ts ih =>
    obtain ⟨g, b', a⟩ := tile
    intro tail h
    obtain ⟨hg, ha, hvNs, hvId, hts⟩ := h
    refine ⟨hg, ?_, ?_, ?_, ih hts⟩
    · by_cases hbb : b' = b
      · simp only [subTiles, if_pos hbb]
        refine ⟨?_, ?_, ?_, hpkg, ?_⟩
        · show ([' '] : List Char) ≠ []
          decide
        · show ∀ c ∈ ([' '] : List Char), pySpace c = true
          decide
        · show isQuote dq = true
          decide
        · show isQuote dq = true
          decide
      · simp only [subTiles, if_neg hbb]
        exact ha
    · by_cases hbb : b' = b
      · simp only [subTiles, if_pos hbb]
        exact hNs
      · simp only [subTiles, if_neg hbb]
        exact hvNs
    · by_cases hbb : b' = b
      · simp only [subTiles, if_pos hbb]
        exact hId
      · simp only [subTiles, if_neg hbb]
        exact hvId

theorem subTiles_stable (b : Bool) (pkg : List Char) :
    ∀ ts : List (List Char × Bool × BAsn),
      subTiles b pkg (subTiles false pkg (subTiles true pkg ts)) =
        subTiles false pkg (subTiles true pkg ts) := by
  intro ts
  induction ts with
  | nil => rfl
  | cons tile ts ih =>
    obtain ⟨g, b', a⟩ := tile
    cases b' <;> cases b <;> simp [subTiles, ih]

/-- `update_twa_manifest_in_gradle` (lines 62–66): the namespace substitution
followed by the applicationId substitution. -/
def updateGradleContent (pkg c : List Char) : List Char :=
  subB keyId pkg (subB keyNs pkg c)

theorem updateGradle_tiled {pkg : List Char}
    {tiles : List (List Char × Bool × BAsn)} {tail : List Char}
    (hpkg : ∀ c ∈ pkg, valB c = true)
    (hNs : occursB keyNs pkg = false) (hId : occursB keyId pkg = false)
    (hok : tilesOk tiles tail) :
    updateGradleContent pkg (tileStr tiles tail) =
      tileStr (subTiles false pkg (subTiles true pkg tiles)) tail := by
  unfold updateGradleContent
  rw [show keyId = keyOf false from rfl, show keyNs = keyOf true from rfl,
    subB_tiles tiles tail hok]
  exact subB_tiles _ tail (tilesOk_subTiles hpkg hNs hId hok)

theorem updateGradle_idem {pkg : List Char}
    {tiles : List (List Char × Bool × BAsn)} {tail : List Char}
    (hpkg : ∀ c ∈ pkg, valB c = true)
    (hNs : occursB keyNs pkg = false) (hId : occursB keyId pkg = false)
    (hok : tilesOk tiles tail) :
    updateGradleContent pkg (updateGradleContent pkg (tileStr tiles tail)) =
      updateGradleContent pkg (tileStr tiles tail) := by
  have h1 := updateGradle_tiled hpkg hNs hId hok
  rw [h1]
  have hok2 : tilesOk (subTiles false pkg (subTiles true pkg tiles)) tail :=
    tilesOk_subTiles hpkg hNs hId (tilesOk_subTiles hpkg hNs hId hok)
  rw [updateGradle_tiled hpkg hNs hId hok2]
  rw [subTiles_stable, subTiles_stable]

/-- Fuel-driven worker for `subBR`. -/
def subBRF : Nat → List Char → List Char → List Char → List Char
  | _, _, _, [] => []
  | 0, _, _, s => s
  | fuel + 1, key, rep, c :: t =>
    match mB key (c :: t) with
    | some rest => rep ++ subBRF fuel key rep rest
    | none => c :: subBRF fuel key rep t

/-- `re.sub` with pattern `KEY\s+["\'].*?["\']` and an arbitrary
already-expanded replacement text.  `subB` is the special case
`rep = repB key pkg`. -/
def subBR (key rep s : List Char) : List Char := subBRF s.length key rep s

theorem subBRF_eq : ∀ (n : Nat) (key pkg s : List Char),
    subBRF n key (repB key pkg) s = subBF n key pkg s
  | n, _, _, [] => by cases n <;> rfl
  | 0, _, _, _ :: _ => rfl
  | n + 1, key, pkg, c :: t => by
    simp only [subBRF, subBF]
    cases hm : mB key (c :: t) with
    | some rest =>
      show repB key pkg ++ subBRF n key (repB key pkg) rest =
        repB key pkg ++ subBF n key pkg rest
      rw [subBRF_eq n key pkg rest]
    | none =>
      show c :: subBRF n key (repB key pkg) t = c :: subBF n key pkg t
      rw [subBRF_eq n key pkg t]

theorem subBR_eq_subB (key pkg s : List Char) :
    subBR key (repB key pkg) s = subB key pkg s :=
  subBRF_eq s.length key pkg s

/-- Lines 63–66 of `update_twa_manifest_in_gradle` with the
replacement-template semantics of `re.sub`: both f-string templates are
escape-processed; a bad escape raises `re.error`, caught by the enclosing
`try`, and the file is left unwritten (`none`). -/
def gradleSub (pkg content : List Char) : Option (List Char) :=
  (expandTemplate (repB keyNs pkg)).bind (fun r1 =>
    (expandTemplate (repB keyId pkg)).map (fun r2 =>
      subBR keyId r2 (subBR keyNs r1 content)))

/-- For a backslash-free package the templates expand to themselves and the
substitution is exactly `updateGradleContent`. -/
theorem gradleSub_eq {pkg : List Char} (hpb : ∀ c ∈ pkg, c ≠ '\\')
    (content : List Char) :
    gradleSub pkg content = some (updateGradleContent pkg content) := by
  have hrep : ∀ key : List Char, (∀ c ∈ key, c ≠ '\\') →
      ∀ c ∈ repB key pkg, c ≠ '\\' := by
    intro key hk c hc
    unfold repB at hc
    rcases List.mem_append.mp hc with hc | hc
    · exact hk c hc
    · simp only [List.mem_cons] at hc
      rcases hc with rfl | rfl | hc
      · decide
      · decide
      · rcases List.mem_append.mp hc with hc | hc
        · exact hpb c hc
        · simp only [List.mem_singleton] at hc
          subst hc
          decide
  have h1 := expandTemplate_id (hrep keyNs (by decide))
  have h2 := expandTemplate_id (hrep keyId (by decide))
  unfold gradleSub
  rw [h1, h2]
  simp only [Option.some_bind, Option.map_some']
  rw [subBR_eq_subB, subBR_eq_subB]
  rfl

/-- The package characters the amended idempotence claim admits (`\w` and
`.`) are legal value characters of the gradle pattern: no quote, no
newline. -/
theorem valB_of_word {c : Char} (h : wordChar c = true ∨ c = '.') :
    valB c = true := by
  unfold valB isQuote
  rcases h with h | rfl
  · have h1 : ¬ c = dq := by rintro rfl; exact absurd h (by decide)
    have h2 : ¬ c = sq := by rintro rfl; exact absurd h (by decide)
    have h3 : ¬ c = Char.ofNat 10 := by rintro rfl; exact absurd h (by decide)
    simp [h1, h2, h3]
  · decide

/-- The package characters the amended idempotence claim admits contain no
backslash. -/
theorem word_no_backslash {pkg : List Char}
    (hpkg : ∀ c ∈ pkg, wordChar c = true ∨ c = '.') :
    ∀ c ∈ pkg, c ≠ '\\' := by
  intro c hc
  rcases hpkg c hc with h | rfl
  · rintro rfl; exact absurd h (by decide)
  · decide

/-- Claim C7 (amended): the `re.sub`-based rewrites insert nothing — a
strings.xml with no matching entry and a gradle file with no
`namespace`/`applicationId` match are written back byte-identical; an
existing strings entry's value is replaced in place; only
`create_launcher_background_color` inserts at a deterministic anchor,
immediately before the closing resources tag, when the color is absent,
and leaves a file that already has it alone.  Stated for backslash-free
configured values, where the replacement templates expand to
themselves. -/
theorem c7_locate_or_insert
    (app host lu pkg pre content gcontent v rest bgContent : List Char)
    (hab : ∀ c ∈ app, c ≠ '\\')
    (hlb : ∀ c ∈ resolveLaunchUrl host lu, c ≠ '\\')
    (hpb : ∀ c ∈ pkg, c ≠ '\\')
    (hnoA : occursB (litA tagApp) content = false)
    (hnoL : occursB (litA tagLaunch) content = false)
    (hgNs : occursB keyNs gcontent = false)
    (hgId : occursB keyId gcontent = false)
    (hv : ∀ c ∈ v, c ≠ ltc)
    (hnoL2 : occursB (litA tagLaunch)
      (litA tagApp ++ app ++ litB ++ rest) = false)
    (hnoA2 : occursB (litA tagApp) rest = false)
    (hbg : occursB (cl "ic_launcher_background")
      (pre ++ cl "</resources>") = false)
    (hpre : ∀ p < pre.length,
      (cl "</resources>").isPrefixOf ((pre ++ cl "</resources>").drop p) = false)
    (hbg2 : occursB (cl "ic_launcher_background") bgContent = true) :
    stringsXmlSub app host lu content = some content ∧
    gradleSub pkg gcontent = some gcontent ∧
    stringsXmlSub app host lu (litA tagApp ++ v ++ litB ++ rest) =
      some (litA tagApp ++ app ++ litB ++ rest) ∧
    create_launcher_background_color (some (pre ++ cl "</resources>")) =
      pre ++ bgInsert ∧
    create_launcher_background_color (some bgContent) = bgContent := by
  refine ⟨?_, ?_, ?_, ?_, ?_⟩
  · rw [stringsXmlSub_eq hab hlb]
    unfold updateStringsContent
    rw [subA_of_not_occurs hnoA, subA_of_not_occurs hnoL]
  · rw [gradleSub_eq hpb]
    unfold updateGradleContent
    rw [subB_of_not_occurs hgNs, subB_of_not_occurs hgId]
  · rw [stringsXmlSub_eq hab hlb]
    unfold updateStringsContent
    rw [subA_match hv, subA_of_not_occurs hnoA2, subA_of_not_occurs hnoL2]
  · show (if occursB (cl "ic_launcher_background") (pre ++ cl "</resources>") = true
        then pre ++ cl "</resources>"
        else replaceAll (pre ++ cl "</resources>") (cl "</resources>") bgInsert) =
      pre ++ bgInsert
    rw [if_neg (by rw [hbg]; exact Bool.false_ne_true)]
    have hne : cl "</resources>" ≠ ([] : List Char) := by decide
    rw [replaceAll_no_occ_pref hne hpre]
    congr 1
  · show (if occursB (cl "ic_launcher_background") bgContent = true
        then bgContent
        else replaceAll bgContent (cl "</resources>") bgInsert) = bgContent
    rw [if_pos hbg2]

/-- Claim C7, witness: the amended theorem at concrete backslash-free
values and a two-line colors.xml. -/
theorem c7_witness :
    ((∀ c ∈ (cl "A"), c ≠ '\\') ∧
     (∀ c ∈ resolveLaunchUrl (cl "h") (cl "/"), c ≠ '\\') ∧
     occursB (litA tagApp) (cl "<resources>\n</resources>") = false ∧
     occursB keyNs (cl "plugins") = false ∧
     occursB (cl "ic_launcher_background") colorsDefault = true) ∧
    create_launcher_background_color
        (some (cl "<resources>\n" ++ cl "</resources>")) =
      cl "<resources>\n" ++ bgInsert :=
  ⟨⟨by decide, by decide, by decide, by decide, by decide⟩,
    (c7_locate_or_insert (cl "A") (cl "h") (cl "/") (cl "com.x")
      (cl "<resources>\n") (cl "<resources>\n</resources>") (cl "plugins")
      (cl "Old") [] colorsDefault
      (by decide) (by decide) (by decide) (by decide) (by decide) (by decide)
      (by decide) (by decide) (by decide) (by decide) (by decide) (by decide)
      (by decide)).2.2.2.1⟩

/-- Claim C8 (amended): for backslash-free configured values, a relative
launchUrl is stored as `https://` ++ the scheme-stripped host ++ the
slash-ensured launchUrl, verbatim.  The host is only scheme-stripped, not
cleaned to the bare host (`c8_counterexample`). -/
theorem c8_resolved_value (app host lu v rest : List Char)
    (hlu : (cl "http").isPrefixOf lu = false)
    (hab : ∀ c ∈ app, c ≠ '\\')
    (hlb : ∀ c ∈ resolveLaunchUrl host lu, c ≠ '\\')
    (hv : ∀ c ∈ v, c ≠ ltc)
    (happ : occursB (litA tagApp) (litA tagLaunch ++ v ++ litB ++ rest) = false)
    (hrest : occursB (litA tagLaunch) rest = false) :
    stringsXmlSub app host lu (litA tagLaunch ++ v ++ litB ++ rest) =
      some (litA tagLaunch ++ (cl "https://" ++ stripSchemes host ++
        ensureSlash lu) ++ litB ++ rest) := by
  rw [stringsXmlSub_eq hab hlb]
  unfold updateStringsContent
  rw [subA_of_not_occurs happ]
  have hres : resolveLaunchUrl host lu =
      cl "https://" ++ stripSchemes host ++ ensureSlash lu := by
    unfold resolveLaunchUrl
    rw [if_neg (by rw [hlu]; exact Bool.false_ne_true)]
  rw [subA_match hv, subA_of_not_occurs hrest, hres]

/-- Claim C8, witness: the amended theorem at host `example.com/sub` and
launchUrl `app`. -/
theorem c8_witness :
    ((cl "http").isPrefixOf (cl "app") = false ∧
     (∀ c ∈ (cl "A"), c ≠ '\\') ∧
     (∀ c ∈ resolveLaunchUrl (cl "example.com/sub") (cl "app"), c ≠ '\\') ∧
     (∀ c ∈ (cl "old"), c ≠ ltc) ∧
     occursB (litA tagApp)
       (litA tagLaunch ++ cl "old" ++ litB ++ ([] : List Char)) = false ∧
     occursB (litA tagLaunch) ([] : List Char) = false) ∧
    stringsXmlSub (cl "A") (cl "example.com/sub") (cl "app")
        (litA tagLaunch ++ cl "old" ++ litB ++ ([] : List Char)) =
      some (litA tagLaunch ++ (cl "https://" ++
        stripSchemes (cl "example.com/sub") ++ ensureSlash (cl "app")) ++
        litB ++ ([] : List Char)) :=
  ⟨⟨by decide, by decide, by decide, by decide, by decide, by decide⟩,
    c8_resolved_value (cl "A") (cl "example.com/sub") (cl "app") (cl "old") []
      (by decide) (by decide) (by decide) (by decide) (by decide) (by decide)⟩


/-- The literal part of the manifest pattern `\s*package="[^"]*"`. -/
def litP : List Char := cl "package=\""

/-- Final stage of `mC`: the closing double quote. -/
def mCq : List Char → Option (List Char)
  | [] => none
  | q :: r3 => if q = dq then some r3 else none

/-- Head matcher for `\s*package="[^"]*"` (line 79): greedy `\s*`, the literal,
a greedy run of non-quote characters, then the closing quote. -/
def mC (s : List Char) : Option (List Char) :=
  let w := s.takeWhile pySpace
  let r := s.drop w.length
  if litP.isPrefixOf r then
    let r2 := r.drop litP.length
    let v := r2.takeWhile (fun c => c ≠ dq)
    mCq (r2.drop v.length)
  else none

/-- Fuel-driven worker for `subC` (the replacement is empty: the attribute is
removed). -/
def subCF : Nat → List Char → List Char
  | _, [] => []
  | 0, s => s
  | fuel + 1, c :: t =>
    match mC (c :: t) with
    | some rest => subCF fuel rest
    | none => c :: subCF fuel t

/-- `re.sub(r'\s*package="[^"]*"', '', s)` from
`update_manifest_remove_package`. -/
def subC (s : List Char) : List Char := subCF s.length s

/-- Whether any position of `s` begins a `\s*package="[^"]*"` match. -/
def hasMatchC : List Char → Bool
  | [] => false
  | c :: t => (mC (c :: t)).isSome || hasMatchC t


theorem mC_rest_length {s rest : List Char} (h : mC s = some rest) :
    rest.length + 1 ≤ s.length := by
  unfold mC at h
  simp only at h
  set w := s.takeWhile pySpace with hw
  set r := s.drop w.length with hr
  by_cases hpre : litP.isPrefixOf r
  · rw [if_pos hpre] at h
    set r2 := r.drop litP.length with hr2
    set v := r2.takeWhile (fun c => c ≠ dq) with hv
    cases hq : r2.drop v.length with
    | nil => rw [hq] at h; exact absurd h (by simp [mCq])
    | cons q r3 =>
      rw [hq] at h
      simp only [mCq] at h
      by_cases hqd : q = dq
      · rw [if_pos hqd] at h
        injection h with h
        subst h
        have hlen := congrArg List.length hq
        simp only [List.length_drop, List.length_cons] at hlen
        have h2 : r2.length = r.length - litP.length := by
          rw [hr2]
          simp
        have h3 : r.length ≤ s.length := by
          rw [hr]
          simp
        omega
      · rw [if_neg hqd] at h
        exact absurd h (by simp)
  · rw [if_neg hpre] at h
    exact absurd h (by simp)

theorem subCF_fuel :
    ∀ (f₁ f₂ : Nat) (s : List Char), s.length ≤ f₁ → s.length ≤ f₂ →
      subCF f₁ s = subCF f₂ s := by
  intro f₁
  induction f₁ with
  | zero =>
    intro f₂ s h₁ _
    cases s with
    | nil => cases f₂ <;> rfl
    | cons c t => simp at h₁
  | succ f ih =>
    intro f₂ s h₁ h₂
    cases s with
    | nil => cases f₂ <;> rfl
    | cons c t =>
      cases f₂ with
      | zero => simp at h₂
      | succ f' =>
        simp only [subCF]
        cases hm : mC (c :: t) with
        | none => rw [ih f' t (by simp at h₁; omega) (by simp at h₂; omega)]
        | some rest =>
          have hlen := mC_rest_length hm
          simp only [List.length_cons] at h₁ h₂ hlen
          show subCF f rest = subCF f' rest
          rw [ih f' rest (by omega) (by omega)]

theorem subC_cons_some {ch : Char} {t rest : List Char}
    (hm : mC (ch :: t) = some rest) : subC (ch :: t) = subC rest := by
  have hlen := mC_rest_length hm
  simp only [List.length_cons] at hlen
  show subCF (t.length + 1) (ch :: t) = _
  simp only [subCF]
  rw [hm]
  show subCF t.length rest = subC rest
  exact subCF_fuel t.length rest.length rest (by omega) (Nat.le_refl _)

theorem subC_cons_none {ch : Char} {t : List Char} (hm : mC (ch :: t) = none) :
    subC (ch :: t) = ch :: subC t := by
  show subCF (t.length + 1) (ch :: t) = _
  simp only [subCF]
  rw [hm]
  rfl

theorem subC_of_no_match : ∀ {s : List Char}, hasMatchC s = false → subC s = s := by
  intro s
  induction s with
  | nil => intro _; rfl
  | cons c t ih =>
    intro h
    simp only [hasMatchC, Bool.or_eq_false_iff] at h
    obtain ⟨h1, h2⟩ := h
    cases hm : mC (c :: t) with
    | some rest => rw [hm] at h1; simp at h1
    | none => rw [subC_cons_none hm, ih h2]



/-- Claim C4 (amended): the three patch operations are idempotent on
well-formed inputs — app name and resolved launch URL free of `<` and of
backslashes, a package of plain `[\w.]` characters not containing the
literal keys, a gradle file that is a tiling of span-free gaps and
`namespace` or `applicationId` assignments, and a manifest whose patched
form has no residual match.  One run produces the literal substitution,
and a second run returns that output unchanged.  Unrestricted idempotence
fails: `c4_counterexample_strings`. -/
theorem c4_idempotent
    (appName host lu pkg manifest strings gradleTail : List Char)
    (gradleTiles : List (List Char × Bool × BAsn))
    (ha : ∀ c ∈ appName, c ≠ ltc)
    (hab : ∀ c ∈ appName, c ≠ '\\')
    (hl : ∀ c ∈ resolveLaunchUrl host lu, c ≠ ltc)
    (hlb : ∀ c ∈ resolveLaunchUrl host lu, c ≠ '\\')
    (hpkg : ∀ c ∈ pkg, wordChar c = true ∨ c = '.')
    (hpNs : occursB keyNs pkg = false)
    (hpId : occursB keyId pkg = false)
    (hok : tilesOk gradleTiles gradleTail)
    (hm : hasMatchC (subC manifest) = false) :
    stringsXmlSub appName host lu strings =
      some (updateStringsContent appName host lu strings) ∧
    stringsXmlSub appName host lu
        (updateStringsContent appName host lu strings) =
      some (updateStringsContent appName host lu strings) ∧
    gradleSub pkg (tileStr gradleTiles gradleTail) =
      some (updateGradleContent pkg (tileStr gradleTiles gradleTail)) ∧
    gradleSub pkg (updateGradleContent pkg (tileStr gradleTiles gradleTail)) =
      some (updateGradleContent pkg (tileStr gradleTiles gradleTail)) ∧
    subC (subC manifest) = subC manifest := by
  refine ⟨stringsXmlSub_eq hab hlb strings, ?_,
    gradleSub_eq (word_no_backslash hpkg) (tileStr gradleTiles gradleTail), ?_,
    subC_of_no_match hm⟩
  · rw [stringsXmlSub_eq hab hlb]
    exact congrArg some (updateStrings_idem ha hl strings)
  · rw [gradleSub_eq (word_no_backslash hpkg)]
    exact congrArg some
      (updateGradle_idem (fun c hc => valB_of_word (hpkg c hc)) hpNs hpId hok)

/-- Claim C4, witness: the amended theorem at a two-assignment gradle
tiling, app name `MyApp`, package `com.example`. -/
theorem c4_witness :
    ((∀ c ∈ cl "MyApp", c ≠ ltc) ∧
     (∀ c ∈ cl "MyApp", c ≠ '\\') ∧
     (∀ c ∈ resolveLaunchUrl (cl "example.com") (cl "/"), c ≠ ltc) ∧
     (∀ c ∈ resolveLaunchUrl (cl "example.com") (cl "/"), c ≠ '\\') ∧
     (∀ c ∈ cl "com.example", wordChar c = true ∨ c = '.') ∧
     occursB keyNs (cl "com.example") = false ∧
     occursB keyId (cl "com.example") = false ∧
     hasMatchC (subC (cl "<manifest>")) = false) ∧
    gradleSub (cl "com.example")
        (updateGradleContent (cl "com.example")
          (tileStr [(cl "plugins\n  ", true, ⟨[' '], sq, cl "com.old", sq⟩),
            (cl "\n  ", false, ⟨[' '], sq, cl "com.old", sq⟩)] (cl "\n"))) =
      some (updateGradleContent (cl "com.example")
        (tileStr [(cl "plugins\n  ", true, ⟨[' '], sq, cl "com.old", sq⟩),
          (cl "\n  ", false, ⟨[' '], sq, cl "com.old", sq⟩)] (cl "\n"))) :=
  ⟨⟨by decide, by decide, by decide, by decide, by decide, by decide,
      by decide, by decide⟩,
    (c4_idempotent (cl "MyApp") (cl "example.com") (cl "/") (cl "com.example")
      (cl "<manifest>") (cl "<resources/>") (cl "\n")
      [(cl "plugins\n  ", true, ⟨[' '], sq, cl "com.old", sq⟩),
        (cl "\n  ", false, ⟨[' '], sq, cl "com.old", sq⟩)]
      (by decide) (by decide) (by decide) (by decide) (by decide) (by decide)
      (by decide)
      ⟨⟨by decide, by decide⟩,
        ⟨by decide, by decide, by decide, by decide, by decide⟩,
        by decide, by decide,
        ⟨by decide, by decide⟩,
        ⟨by decide, by decide, by decide, by decide, by decide⟩,
        by decide, by decide,
        ⟨by decide, by decide⟩⟩
      (by decide)).2.2.2.1⟩


/-- One element rewrite of `update_colors_xml` (`build-apk.py`, lines 49–56):
elements named `colorPrimary`, `colorPrimaryDark` and `backgroundColor` get
the configured values stored verbatim; no normalization of any kind. -/
def colorMap (tc tcd bg : List Char) (e : List Char × List Char) :
    List Char × List Char :=
  if e.1 = cl "colorPrimary" then (e.1, tc)
  else if e.1 = cl "colorPrimaryDark" then (e.1, tcd)
  else if e.1 = cl "backgroundColor" then (e.1, bg)
  else e

/-- `update_colors_xml` of `build-apk.py` (lines 41–63) on the `<color>`
elements of `colors.xml`, modelled as (name, text) pairs. -/
def update_colors_xml (tc tcd bg : List Char)
    (colors : List (List Char × List Char)) : List (List Char × List Char) :=
  colors.map (colorMap tc tcd bg)

/-- Read back the text of the color element with the given name. -/
def lookupColor (name : List Char) (colors : List (List Char × List Char)) :
    Option (List Char) :=
  (colors.find? (fun e => e.1 = name)).map (fun e => e.2)

theorem colorMap_fst (tc tcd bg : List Char) (e : List Char × List Char) :
    (colorMap tc tcd bg e).1 = e.1 := by
  unfold colorMap
  split
  · rfl
  split
  · rfl
  split
  · rfl
  · rfl

/-- Claim C5, counterexample: themeColor `171717` is stored as `171717`,
not `#171717` — no `#` normalization exists anywhere in the pipeline. -/
theorem c5_counterexample :
    lookupColor (cl "colorPrimary")
        (update_colors_xml (cl "171717") (cl "000000") (cl "FFFFFF")
          [(cl "colorPrimary", cl "#000000"),
            (cl "colorPrimaryDark", cl "#000000"),
            (cl "backgroundColor", cl "#FFFFFF")]) = some (cl "171717") ∧
      some (cl "171717") ≠ some (cl "#171717") := by decide

/-- Claim C5 (amended): `update_colors_xml` stores each configured color
value verbatim into the matching color element — re-reading the field
returns the configured string unchanged, with no normalization. -/
theorem c5_colors_verbatim (tc tcd bg : List Char)
    (colors : List (List Char × List Char)) :
    lookupColor (cl "colorPrimary") (update_colors_xml tc tcd bg colors) =
      (lookupColor (cl "colorPrimary") colors).map (fun _ => tc) ∧
    lookupColor (cl "colorPrimaryDark") (update_colors_xml tc tcd bg colors) =
      (lookupColor (cl "colorPrimaryDark") colors).map (fun _ => tcd) ∧
    lookupColor (cl "backgroundColor") (update_colors_xml tc tcd bg colors) =
      (lookupColor (cl "backgroundColor") colors).map (fun _ => bg) := by
  have key : ∀ (name val : List Char),
      (∀ e : List Char × List Char, e.1 = name →
        (colorMap tc tcd bg e).2 = val) →
      lookupColor name (update_colors_xml tc tcd bg colors) =
        (lookupColor name colors).map (fun _ => val) := by
    intro name val hval
    unfold lookupColor update_colors_xml
    rw [List.find?_map]
    have hcomp : ((fun e : List Char × List Char => decide (e.1 = name)) ∘
        colorMap tc tcd bg) = (fun e => decide (e.1 = name)) := by
      funext e
      simp [Function.comp, colorMap_fst]
    rw [hcomp]
    cases hfind : colors.find? (fun e => decide (e.1 = name)) with
    | none => rfl
    | some e =>
      have hp := List.find?_some hfind
      simp only [decide_eq_true_eq] at hp
      simp only [Option.map_map, Option.map_some]
      show some ((colorMap tc tcd bg e).2) = some val
      rw [hval e hp]
  refine ⟨key _ tc ?_, key _ tcd ?_, key _ bg ?_⟩
  · intro e he
    unfold colorMap
    rw [if_pos he]
  · intro e he
    unfold colorMap
    rw [if_neg (by rw [he]; decide), if_pos he]
  · intro e he
    unfold colorMap
    rw [if_neg (by rw [he]; decide), if_neg (by rw [he]; decide), if_pos he]


/-- A file of the resource tree, identified by directory and name. -/
structure FileEntry where
  dir : List Char
  name : List Char
  content : List Char
deriving DecidableEq

/-- The five density buckets scanned by `clean_existing_icons` (line 162). -/
def mipmapDirs : List (List Char) :=
  [cl "mipmap-mdpi", cl "mipmap-hdpi", cl "mipmap-xhdpi",
    cl "mipmap-xxhdpi", cl "mipmap-xxxhdpi"]

/-- Line 168: a file in a mipmap directory whose name contains `ic_launcher`
or `ic_foreground` (Python substring test). -/
def isStaleIcon (f : FileEntry) : Bool :=
  mipmapDirs.contains f.dir &&
    (occursB (cl "ic_launcher") f.name || occursB (cl "ic_foreground") f.name)

/-- `clean_existing_icons` (lines 161–175): delete every stale icon file. -/
def clean_existing_icons (fs : List FileEntry) : List FileEntry :=
  fs.filter (fun f => !isStaleIcon f)

/-- The five (bucket, pixel size) pairs of line 340. -/
def iconSizes : List (List Char × Nat) :=
  [(cl "mipmap-mdpi", 48), (cl "mipmap-hdpi", 72), (cl "mipmap-xhdpi", 96),
    (cl "mipmap-xxhdpi", 144), (cl "mipmap-xxxhdpi", 192)]

/-- The fixed name of the adaptive foreground drawable (lines 205 and 261). -/
def fgName : List Char := cl "ic_launcher_phone_foreground.xml"

/-- The built-in phone foreground vector of `create_phone_foreground_icon`
(lines 220–259), used whenever the catalog fetch fails or the choice is
unrecognized. -/
def phoneForegroundContent : List Char :=
  cl "<?xml version=\"1.0\" encoding=\"utf-8\"?>\n<vector xmlns:android=\"http://schemas.android.com/apk/res/android\"\n    xmlns:aapt=\"http://schemas.android.com/aapt\"\n    android:width=\"108dp\"\n    android:height=\"108dp\"\n    android:viewportWidth=\"108\"\n    android:viewportHeight=\"108\">\n    <path android:pathData=\"M24,24L84,24L84,84L24,84z\">\n        <aapt:attr name=\"android:fillColor\">\n            <gradient\n                android:endX=\"85.84757\"\n                android:endY=\"92.4963\"\n                android:startX=\"42.9492\"\n                android:startY=\"49.59793\"\n                android:type=\"linear\">\n                <item\n                    android:color=\"#44000000\"\n                    android:offset=\"0.0\" />\n                <item\n                    android:color=\"#00000000\"\n                    android:offset=\"1.0\" />\n            </gradient>\n        </aapt:attr>\n    </path>\n    <path\n        android:fillColor=\"#3B82F6\"\n        android:fillType=\"nonZero\"\n        android:pathData=\"M32,32L76,32L76,76L32,76z\"\n        android:strokeWidth=\"1\"\n        android:strokeColor=\"#00000000\" />\n    <path\n        android:fillColor=\"#FFFFFF\"\n        android:fillType=\"nonZero\"\n        android:pathData=\"M54,40L54,68\"\n        android:strokeWidth=\"3\"\n        android:strokeColor=\"#FFFFFF\" />\n    <path\n        android:fillColor=\"#FFFFFF\"\n        android:pathData=\"M50,34a4,4 0,1 1,8 0a4,4 0,1 1,-8 0z\" />\n</vector>"

/-- The catalog keys of `create_adaptive_foreground_icon` (lines 196–200). -/
def vectorCatalog : List (List Char) := [cl "phone", cl "rocket", cl "shield"]

/-- `create_adaptive_foreground_icon` (lines 190–213): on a recognized choice
with a successful fetch, write the fetched vector; otherwise fall back to the
built-in phone foreground.  Every path writes `drawable/ic_launcher_phone_foreground.xml`. -/
def create_adaptive_foreground_icon (choice : List Char)
    (fetch : Option (List Char)) : FileEntry :=
  if vectorCatalog.contains choice then
    match fetch with
    | some v => ⟨cl "drawable", fgName, v⟩
    | none => ⟨cl "drawable", fgName, phoneForegroundContent⟩
  else ⟨cl "drawable", fgName, phoneForegroundContent⟩

/-- The adaptive-icon descriptor written by `create_adaptive_icon_config`
(lines 271–275). -/
def adaptiveIconContent : List Char :=
  cl "<?xml version=\"1.0\" encoding=\"utf-8\"?>\n<adaptive-icon xmlns:android=\"http://schemas.android.com/apk/res/android\">\n    <background android:drawable=\"@color/ic_launcher_background\"/>\n    <foreground android:drawable=\"@drawable/ic_launcher_phone_foreground\"/>\n</adaptive-icon>"

/-- `create_adaptive_icon_config` (lines 266–280). -/
def create_adaptive_icon_config : FileEntry :=
  ⟨cl "mipmap-anydpi-v26", cl "ic_launcher.xml", adaptiveIconContent⟩

/-- The WebP emission loop of lines 344–348: for each bucket, a standard and a
round icon.  The encoder (PIL resize + WebP save + size check,
`create_webp_icon`) is an external collaborator, passed as a function; a
failed encode is abstracted as producing no file. -/
def emitWebps {Img : Type} (encode : Img → Nat → Option (List Char))
    (img : Img) : List FileEntry :=
  iconSizes.flatMap (fun d =>
    ((encode img d.2).map (fun c => FileEntry.mk d.1 (cl "ic_launcher.webp") c)).toList ++
      ((encode img d.2).map
        (fun c => FileEntry.mk d.1 (cl "ic_launcher_round.webp") c)).toList)

/-- Line 356: `create_launcher_background_color` applied to the resource
tree — the `values/colors.xml` entry is rewritten in place, or appended when
the file does not exist. -/
def applyBgColor (fs : List FileEntry) : List FileEntry :=
  match fs.find? (fun f => f.dir = cl "values" && f.name = cl "colors.xml") with
  | some old =>
    fs.map (fun f =>
      if f.dir = cl "values" && f.name = cl "colors.xml" then
        ⟨f.dir, f.name, create_launcher_background_color (some old.content)⟩
      else f)
  | none =>
    fs ++ [⟨cl "values", cl "colors.xml", create_launcher_background_color none⟩]

/-- `set_launcher_icons` (lines 306–363).  Acquisition outcomes are passed as
`Option` parameters: `inlineImg` is the decoded `ICON_BASE64` (none when
absent or undecodable), `fetchImg` the downloaded-and-decoded catalog image
(consulted only when the choice is a recognized key).  Returns the reported
success flag and the resulting resource tree. -/
def set_launcher_icons {Img : Type} (encode : Img → Nat → Option (List Char))
    (vectorFetch : Option (List Char)) (choice : List Char)
    (choiceRecognized : Bool) (inlineImg fetchImg : Option Img)
    (resExists : Bool) (fs : List FileEntry) : Bool × List FileEntry :=
  if resExists = false then (true, fs)
  else
    let fs1 := clean_existing_icons fs
    let img := match inlineImg with
      | some i => some i
      | none => if choiceRecognized then fetchImg else none
    match img with
    | none => (true, fs1)
    | some i =>
      (true, applyBgColor (fs1 ++ emitWebps encode i ++
        [create_adaptive_foreground_icon choice vectorFetch,
          create_adaptive_icon_config]))

/-- Claim C9: when the resources directory does not exist,
`set_launcher_icons` returns success and the file tree is unchanged, for
every icon choice, acquisition outcome and encoder. -/
theorem c9_missing_res_untouched {Img : Type}
    (encode : Img → Nat → Option (List Char))
    (vectorFetch : Option (List Char)) (choice : List Char)
    (choiceRecognized : Bool) (inlineImg fetchImg : Option Img)
    (fs : List FileEntry) :
    set_launcher_icons encode vectorFetch choice choiceRecognized inlineImg
      fetchImg false fs = (true, fs) := by
  unfold set_launcher_icons
  rw [if_pos rfl]

/-- Claim C2, counterexample: with both acquisition sources failed, a
pre-existing `mipmap-mdpi/ic_launcher.webp` is deleted — the tree is not
byte-for-byte unchanged. -/
theorem c2_counterexample :
    @set_launcher_icons Unit (fun _ _ => none) none (cl "zzz") false
        none none true
        [⟨cl "mipmap-mdpi", cl "ic_launcher.webp", cl "OLD"⟩] =
      (true, []) ∧
    (true, ([] : List FileEntry)) ≠
      (true, [FileEntry.mk (cl "mipmap-mdpi") (cl "ic_launcher.webp")
        (cl "OLD")]) := by decide

/-- Claim C2 (amended): when neither source yields an image,
`set_launcher_icons` reports success and the tree is exactly
`clean_existing_icons` of the input — stale launcher icons are deleted
before acquisition is attempted, and nothing else changes. -/
theorem c2_both_fail_cleanup_only {Img : Type}
    (encode : Img → Nat → Option (List Char))
    (vectorFetch : Option (List Char)) (choice : List Char)
    (choiceRecognized : Bool) (fs : List FileEntry) :
    @set_launcher_icons Img encode vectorFetch choice choiceRecognized
      none none true fs = (true, clean_existing_icons fs) := by
  unfold set_launcher_icons
  rw [if_neg (by simp)]
  cases choiceRecognized <;> rfl

set_option maxRecDepth 10000 in
/-- Claim C10: every choice and fetch outcome writes the adaptive
foreground under `drawable/ic_launcher_phone_foreground.xml`, and the
adaptive-icon descriptor written in the same run references
`@drawable/ic_launcher_phone_foreground`. -/
theorem c10_foreground_fixed_name (choice : List Char)
    (fetch : Option (List Char)) :
    (create_adaptive_foreground_icon choice fetch).dir = cl "drawable" ∧
    (create_adaptive_foreground_icon choice fetch).name = fgName ∧
    occursB (cl "@drawable/ic_launcher_phone_foreground")
      adaptiveIconContent = true := by
  refine ⟨?_, ?_, by decide⟩ <;>
    · unfold create_adaptive_foreground_icon
      split
      · cases fetch <;> rfl
      · rfl


/-- The three project files the patch run of `main` (lines 423–429) touches
through text substitution; `none` means the file does not exist. -/
structure Project where
  gradle : Option (List Char)
  manifest : Option (List Char)
  stringsXml : Option (List Char)
deriving DecidableEq

/-- `update_twa_manifest_in_gradle` (lines 58–71) at file level: a missing
`build.gradle` logs an error and returns `False`; otherwise the content is
rewritten and `True` is returned.  No exception escapes. -/
def update_twa_manifest_in_gradle (g : Option (List Char))
    (pkg : List Char) : Option (List Char) × Bool :=
  match g with
  | none => (none, false)
  | some c => (some (updateGradleContent pkg c), true)

/-- `update_manifest_remove_package` (lines 73–86) at file level: a missing
manifest logs a warning and returns `False`; otherwise the `package`
attribute is stripped and `True` is returned.  No exception escapes. -/
def update_manifest_remove_package (m : Option (List Char)) :
    Option (List Char) × Bool :=
  match m with
  | none => (none, false)
  | some c => (some (subC c), true)

/-- `update_strings_xml` (lines 88–109) at file level: a missing
`strings.xml` logs an error and returns `False`; otherwise app name and
launch URL are rewritten and `True` is returned.  No exception escapes; a
replacement-template `re.error` is likewise caught, returning `False` with
the file unwritten (`stringsXmlSub` models that path; the content here is
the backslash-free case). -/
def update_strings_xml (s : Option (List Char))
    (appName host lu : List Char) : Option (List Char) × Bool :=
  match s with
  | none => (none, false)
  | some c => (some (updateStringsContent appName host lu c), true)

/-- `main` (lines 387–449).  Environment access and external processes are
passed as flags: `hostSet`/`appSet` say whether `HOST_NAME`/`APP_NAME` are
present (`read_env_or_fail` raises otherwise, caught at line 444 giving exit
code 1), `cloneFails` whether the `git clone` of a missing app directory
raises, `publishRelease`/`publishEnvSet` model the release branch whose
`read_env_or_fail` calls run after all file updates.  The Boolean results of
the three update calls are discarded by `main`; `update_java_kotlin_package`
and `set_launcher_icons` touch no file of `Project` and never raise.
Returns the exit code and the resulting file states. -/
def mainModel (hostSet appSet cloneFails publishRelease publishEnvSet : Bool)
    (host appName lu : List Char) (p : Project) : Nat × Project :=
  if hostSet = false then (1, p)
  else if appSet = false then (1, p)
  else if cloneFails = true then (1, p)
  else
    let pkg := generate_package_name host
    let p2 : Project :=
      ⟨(update_twa_manifest_in_gradle p.gradle pkg).1,
        (update_manifest_remove_package p.manifest).1,
        (update_strings_xml p.stringsXml appName host lu).1⟩
    if publishRelease = true && publishEnvSet = false then (1, p2)
    else (0, p2)

/-- Claim C3, counterexample: a run with the manifest missing (and the
required environment present) exits 0 — missing manifest is not fatal. -/
theorem c3_counterexample :
    (mainModel true true false false false (cl "example.com") (cl "App")
        (cl "/") ⟨some (cl "x"), none, some (cl "<resources/>")⟩).1 = 0 ∧
    (0 : Nat) ≠ 1 := by decide

/-- Claim C3 (amended): with `HOST_NAME`/`APP_NAME` set, the clone
succeeding and no release requested, `main` exits 0 whatever project files
are missing — the manifest included, whose absence only logs a warning;
when present it is patched. -/
theorem c3_missing_manifest_not_fatal (b : Bool) (host appName lu : List Char)
    (p : Project) :
    (mainModel true true false false b host appName lu p).1 = 0 ∧
    (mainModel true true false false b host appName lu
      ⟨p.gradle, none, p.stringsXml⟩).1 = 0 ∧
    (mainModel true true false false b host appName lu p).2.manifest =
      p.manifest.map (fun c => subC c) := by
  obtain ⟨g, m, st⟩ := p
  refine ⟨?_, rfl, ?_⟩ <;> cases m <;> rfl

end Apk
